import Mathlib

/-!
Verification of the cluster-matching core of `cds-beard`
(`invenio_beard/matching/match.py`, `invenio_beard/matching/simplex.py`,
and the subproblem divider known from its tests and the design document).

Partitions are modelled as association lists from `String` keys to finite
sets of item identifiers (`Finset ℕ`), preserving a fixed iteration order,
which mirrors the code's reliance on a consistent `viewvalues()`/`keys()`
order within one call.  The external LP routine (`scipy.optimize.linprog`)
is modelled as an oracle parameter: a function from the exact argument
record the code builds (cost coefficients, constraint matrices, bounds,
`maxiter`) to a result record holding the solution vector `x`, the status
code and the success flag, exactly the fields the code can observe.
-/

namespace CdsBeard

/-- A cluster's item set (Python `set` of hashable ids, modelled as `Finset ℕ`). -/
abbrev ItemSet := Finset ℕ

/-- A partition: ordered mapping from cluster key to item set (Python `dict`). -/
abbrev Partition := List (String × ItemSet)

/-- The key list of a partition, in iteration order (Python `dict.keys()`). -/
def keysOf (p : Partition) : List String := p.map Prod.fst

/-- Python `set.symmetric_difference`: items in exactly one of the two sets. -/
def symmDiffSet (b a : ItemSet) : ItemSet := (b \ a) ∪ (a \ b)

/-- One entry of the cost matrix from `_cost_matrix` (simplex.py lines 72-77):
`-len(b ∩ a) - 1.0 / (len(partition_after) * (1 + len(b symmdiff a)))`. -/
def costEntry (nA : ℕ) (b a : ItemSet) : ℚ :=
  -((b ∩ a).card : ℚ) - 1 / ((nA : ℚ) * (1 + ((symmDiffSet b a).card : ℚ)))

/-- The tie-break subterm of `costEntry`: `1 / (len(partition_after) * (1 + len(b symmdiff a)))`. -/
def tieBreakTerm (nA : ℕ) (b a : ItemSet) : ℚ :=
  1 / ((nA : ℚ) * (1 + ((symmDiffSet b a).card : ℚ)))

theorem costEntry_eq_neg_inter_sub_tie (nA : ℕ) (b a : ItemSet) :
    costEntry nA b a = -((b ∩ a).card : ℚ) - tieBreakTerm nA b a := rfl

/-- The cost matrix of `_cost_matrix` (simplex.py lines 64-79): one row per
before-cluster, one column per after-cluster, in iteration order. -/
def costMatrix (pb pa : Partition) : List (List ℚ) :=
  pb.map fun bkv => pa.map fun akv => costEntry pa.length bkv.2 akv.2

/-- The virtual before-key the solver creates for an after-key:
`'v' + str(index)` (simplex.py line 118). -/
def vkey (k : String) : String := "v" ++ k

/-- Python dict assignment `p[k] = v`: replace the value in place if the key
is present, otherwise append the new binding at the end. -/
def dictInsert (p : Partition) (k : String) (v : ItemSet) : Partition :=
  if p.any (fun kv => kv.1 = k) then
    p.map (fun kv => if kv.1 = k then (k, v) else kv)
  else p ++ [(k, v)]

/-- The in-place virtual-cluster augmentation at the top of `_match_clusters`
(simplex.py lines 116-118): `for index in partition_after:
partition_before['v' + str(index)] = set()`.  The returned partition is the
state of the caller's `partition_before` object after the loop. -/
def augmentVirtual (pb pa : Partition) : Partition :=
  pa.foldl (fun acc kv => dictInsert acc (vkey kv.1) ∅) pb

/-- The argument record the code hands to `scipy.optimize.linprog`
(simplex.py lines 145-150). -/
structure LinprogInput where
  c : List ℚ
  A_ub : List (List ℚ)
  b_ub : List ℚ
  A_eq : List (List ℚ)
  b_eq : List ℚ
  maxiter : ℕ
deriving DecidableEq

/-- The fields of the `scipy.optimize.OptimizeResult` the code can observe:
the solution vector `x`, the termination status and the success flag. -/
structure LinprogResult where
  x : List ℚ
  status : ℕ
  success : Bool
deriving DecidableEq

/-- The LP solver as an oracle: any function with `linprog`'s interface. -/
abbrev LinprogOracle := LinprogInput → LinprogResult

/-- The inequality-constraint matrix built in simplex.py lines 128-132: row
`i` has ones exactly on the edge block `[i*nA, (i+1)*nA)` of the `nB*nA`
flattened edge variables ("each agent assigned to at most one task"). -/
def A_ubMatrix (nB nA : ℕ) : List (List ℚ) :=
  (List.range nB).map fun i =>
    (List.range (nB * nA)).map fun e =>
      if i * nA ≤ e ∧ e < (i + 1) * nA then 1 else 0

/-- The equality-constraint matrix built in simplex.py lines 137-140: row `j`
has ones exactly on edges `e` with `e % nA = j` ("each task assigned to
exactly one agent"). -/
def A_eqMatrix (nB nA : ℕ) : List (List ℚ) :=
  (List.range nA).map fun j =>
    (List.range (nB * nA)).map fun e =>
      if e % nA = j then 1 else 0

/-- Dot product of two vectors, over the indices of the first (numpy row
times solution vector; out-of-range entries read as 0). -/
def dot (u v : List ℚ) : ℚ :=
  ∑ e ∈ Finset.range u.length, u.getD e 0 * v.getD e 0

/-- The full `linprog` argument record built by `_match_clusters`
(simplex.py lines 120-150) from the augmented before-partition and the
after-partition: flattened cost coefficients, the two constraint matrices
and all-ones right-hand sides. -/
def buildLinprogInput (pbAug pa : Partition) (maxiter : ℕ) : LinprogInput :=
  { c := (costMatrix pbAug pa).flatten
    A_ub := A_ubMatrix pbAug.length pa.length
    b_ub := List.replicate pbAug.length 1
    A_eq := A_eqMatrix pbAug.length pa.length
    b_eq := List.replicate pa.length 1
    maxiter := maxiter }

/-- Feasibility of a vector for a `linprog` input: `A_ub x ≤ b_ub`,
`A_eq x = b_eq`, and the default variable bounds `x ≥ 0`. -/
def FeasibleFor (inp : LinprogInput) (x : List ℚ) : Prop :=
  (∀ i < inp.A_ub.length, dot (inp.A_ub.getD i []) x ≤ inp.b_ub.getD i 0) ∧
  (∀ j < inp.A_eq.length, dot (inp.A_eq.getD j []) x = inp.b_eq.getD j 0) ∧
  (∀ v ∈ x, 0 ≤ v)

/-- The first `nE` entries of the vector are all 0 or 1 (an integral vertex
of the assignment polytope, which is what the decode loop's `== 1` test
presumes). -/
def ZeroOneOn (nE : ℕ) (x : List ℚ) : Prop :=
  ∀ e < nE, x.getD e 0 = 0 ∨ x.getD e 0 = 1

/-- The inner loop of the decode phase (simplex.py lines 161-162): scan the
columns of row `i` and stop at the first `solution.x[...] == 1`. -/
def decodeRow (x : List ℚ) (nA i : ℕ) : Option ℕ :=
  (List.range nA).find? fun j => x.getD (i * nA + j) 0 == 1

/-- The three buckets `_match_clusters` returns. -/
structure MatchResult where
  pairs : List (String × String)
  newKeys : List String
  removed : List String
deriving DecidableEq

/-- One iteration of the decode loop of `_match_clusters` (simplex.py lines
160-174): the first column of row `i` whose variable equals 1 determines a
matched pair (real row, `index_first < len_first`) or a new key (virtual
row); a real row with no such column is removed. -/
def decodeStep (bkeys akeys : List String) (lenFirst : ℕ) (x : List ℚ)
    (acc : MatchResult) (i : ℕ) : MatchResult :=
  match decodeRow x akeys.length i with
  | some j =>
      if i < lenFirst then
        { acc with pairs := acc.pairs ++ [(bkeys.getD i "", akeys.getD j "")] }
      else
        { acc with newKeys := acc.newKeys ++ [akeys.getD j ""] }
  | none =>
      if i < lenFirst then
        { acc with removed := acc.removed ++ [bkeys.getD i ""] }
      else acc

/-- The decode loop of `_match_clusters` (simplex.py lines 156-176), over
rows `0 .. len_first + len_second - 1`. -/
def decodeSolution (bkeys akeys : List String) (lenFirst : ℕ) (x : List ℚ) :
    MatchResult :=
  (List.range (lenFirst + akeys.length)).foldl
    (decodeStep bkeys akeys lenFirst x) ⟨[], [], []⟩

/-- The solver `_match_clusters` (simplex.py lines 82-176), with the external
`scipy.optimize.linprog` call abstracted as an oracle.  Returns the decoded
result together with the post-call state of the caller's `partition_before`
object (which the function augments in place with virtual clusters). -/
def matchClusters (solver : LinprogOracle) (pb pa : Partition)
    (maxiter : ℕ := 5000) : MatchResult × Partition :=
  let pbAug := augmentVirtual pb pa
  let sol := solver (buildLinprogInput pbAug pa maxiter)
  let lenFirst := pbAug.length - pa.length
  (decodeSolution (keysOf pbAug) (keysOf pa) lenFirst sol.x, pbAug)

/-! ## The subproblem divider

`invenio_beard/matching/subproblems.py` is not part of the sources at hand;
only its tests and its design-document contract are.  The definitions below
are therefore modelled from the specification:

* each raw cluster value is normalized with `set(...)`; a value that is not
  an iterable/sized collection (e.g. an integer) raises a `TypeError`;
* a before-cluster and an after-cluster are adjacent iff their item sets
  intersect; connected components of this bipartite relation are computed
  over the union of before-keys and after-keys;
* each component yields one subproblem holding its before-clusters and
  after-clusters (either side possibly empty), in first-seen deterministic
  order; an empty-valued cluster forms its own singleton subproblem. -/

/-- View of an `Except` value as a sum, for deciding equality. -/
def exceptToSum : Except ε α → ε ⊕ α
  | .error e => .inl e
  | .ok a => .inr a

instance {ε α : Type} [DecidableEq ε] [DecidableEq α] :
    DecidableEq (Except ε α) := fun a b =>
  decidable_of_iff (exceptToSum a = exceptToSum b)
    (by cases a <;> cases b <;> simp [exceptToSum])

/-- A raw dictionary value as the divider receives it: either an iterable
collection of items or an invalid scalar. -/
inductive RawValue where
  | items : List ℕ → RawValue
  | scalar : ℤ → RawValue
deriving DecidableEq

/-- A raw input partition (cluster key to raw value). -/
abbrev RawPartition := List (String × RawValue)

/-- Modelled from the spec: `set(value)` — normalize one cluster value to a
set, failing fast with a type error on a scalar. -/
def normalizeValue : RawValue → Except String ItemSet
  | .items l => .ok l.toFinset
  | .scalar _ => .error "TypeError"

/-- Modelled from the spec: normalize every cluster value of a partition,
propagating the first type error. -/
def normalizePartition : RawPartition → Except String Partition
  | [] => .ok []
  | kv :: rest =>
      match normalizeValue kv.2 with
      | .error e => .error e
      | .ok v =>
          match normalizePartition rest with
          | .error e => .error e
          | .ok rest' => .ok ((kv.1, v) :: rest')

/-- One in-progress connected component: the before-keys merged into it and
the after-keys adjacent to any of those before-clusters. -/
structure Component where
  bks : List String
  aks : List String
deriving DecidableEq

/-- The after-keys whose clusters share at least one item with `s`. -/
def neighborKeys (s : ItemSet) (pa : Partition) : List String :=
  (pa.filter fun akv => ¬ (s ∩ akv.2) = ∅).map Prod.fst

/-- Modelled from the spec: add one before-cluster to the running component
list, merging every component that shares an after-neighbor with it. -/
def addBeforeKey (comps : List Component) (k : String) (ns : List String) :
    List Component :=
  let touched := comps.filter fun c => c.aks.any (· ∈ ns)
  let rest := comps.filter fun c => !c.aks.any (· ∈ ns)
  rest ++ [⟨(touched.map Component.bks).flatten ++ [k],
           (touched.map Component.aks).flatten ++ ns⟩]

/-- Modelled from the spec: the connected components of the bipartite
share-an-item relation, accumulated over the before-keys in order. -/
def bipartiteComponents (pb pa : Partition) : List Component :=
  pb.foldl (fun comps kv => addBeforeKey comps kv.1 (neighborKeys kv.2 pa)) []

/-- Modelled from the spec: `_divide_into_subproblems` — normalize both
partitions, split them into connected components, and return one subproblem
per component (before-side components first, in first-seen order, then one
singleton subproblem per after-key touching no before-cluster). -/
def divideIntoSubproblems (pb pa : RawPartition) :
    Except String (List (Partition × Partition)) :=
  match normalizePartition pb with
  | .error e => .error e
  | .ok pb' =>
      match normalizePartition pa with
      | .error e => .error e
      | .ok pa' =>
          let comps := bipartiteComponents pb' pa'
          let claimed := (comps.map Component.aks).flatten
          let fromComps := comps.map fun c =>
            (pb'.filter fun kv => kv.1 ∈ c.bks,
             pa'.filter fun kv => kv.1 ∈ c.aks)
          let singles := (pa'.filter fun kv => kv.1 ∉ claimed).map fun kv =>
            (([] : Partition), [kv])
          .ok (fromComps ++ singles)

/-- The three buckets `do_matching` accumulates (match.py lines 59-79).
Each bucket element is one subproblem's (nonempty) solver bucket, appended
as a whole (`bucket_matched.append(matching_result[0])`). -/
structure DoMatchingResult where
  matched : List (List (String × String))
  newKeys : List (List String)
  removed : List (List String)
deriving DecidableEq

/-- The solver buckets of one subproblem (`matching_result` in match.py
line 67). -/
def solvedResult (solver : LinprogOracle) (sub : Partition × Partition) :
    MatchResult := (matchClusters solver sub.1 sub.2).1

/-- The per-subproblem accumulation step of `do_matching` (match.py lines
67-77): solve the subproblem and append each nonempty bucket. -/
def doMatchingStep (solver : LinprogOracle) (acc : DoMatchingResult)
    (sub : Partition × Partition) : DoMatchingResult :=
  let r := solvedResult solver sub
  { matched := acc.matched ++ if r.pairs = [] then [] else [r.pairs]
    newKeys := acc.newKeys ++ if r.newKeys = [] then [] else [r.newKeys]
    removed := acc.removed ++ if r.removed = [] then [] else [r.removed] }

/-- The orchestrator `do_matching` (match.py lines 30-79): divide into
subproblems, solve
each, and accumulate the three buckets, with the LP routine abstracted as
an oracle. -/
def doMatching (solver : LinprogOracle) (pb pa : RawPartition) :
    Except String DoMatchingResult :=
  match divideIntoSubproblems pb pa with
  | .error e => .error e
  | .ok subs => .ok (subs.foldl (doMatchingStep solver) ⟨[], [], []⟩)

/-! ## Basic lemmas about the embedding -/

theorem vkey_injective : Function.Injective vkey := by
  intro a b h
  have hd : (vkey a).data = (vkey b).data := by rw [h]
  simp only [vkey, String.data_append] at hd
  exact String.ext (List.append_cancel_left hd)

theorem keysOf_append (p q : Partition) :
    keysOf (p ++ q) = keysOf p ++ keysOf q := by
  simp [keysOf]

theorem keysOf_length (p : Partition) : (keysOf p).length = p.length := by
  simp [keysOf]

theorem dictInsert_of_not_mem (p : Partition) (k : String) (v : ItemSet)
    (h : k ∉ keysOf p) : dictInsert p k v = p ++ [(k, v)] := by
  have : p.any (fun kv => kv.1 = k) = false := by
    simp only [List.any_eq_false, decide_eq_true_eq]
    intro kv hkv hk
    exact h (hk ▸ List.mem_map_of_mem Prod.fst hkv)
  simp [dictInsert, this]

/-- Under fresh virtual keys, the in-place augmentation appends exactly one
empty virtual cluster per after-key, in order, after the original entries. -/
theorem augmentVirtual_eq_append (pb pa : Partition)
    (hfresh : ∀ k ∈ keysOf pa, vkey k ∉ keysOf pb)
    (hnodup : (keysOf pa).Nodup) :
    augmentVirtual pb pa = pb ++ pa.map fun kv => (vkey kv.1, ∅) := by
  induction pa generalizing pb with
  | nil => simp [augmentVirtual]
  | cons kv rest ih =>
      have hcons : keysOf (kv :: rest) = kv.1 :: keysOf rest := rfl
      rw [hcons] at hnodup hfresh
      have hk : vkey kv.1 ∉ keysOf pb :=
        hfresh kv.1 (List.mem_cons_self kv.1 (keysOf rest))
      have hstep : dictInsert pb (vkey kv.1) ∅ = pb ++ [(vkey kv.1, ∅)] :=
        dictInsert_of_not_mem pb (vkey kv.1) ∅ hk
      have hnodup' : (keysOf rest).Nodup := (List.nodup_cons.mp hnodup).2
      have hnotmem : kv.1 ∉ keysOf rest := (List.nodup_cons.mp hnodup).1
      have hfresh' : ∀ k ∈ keysOf rest, vkey k ∉ keysOf (pb ++ [(vkey kv.1, ∅)]) := by
        intro k hkmem
        rw [keysOf_append]
        intro hmem
        rcases List.mem_append.mp hmem with h1 | h1
        · exact hfresh k (List.mem_cons_of_mem _ hkmem) h1
        · have : vkey k = vkey kv.1 := by simpa [keysOf] using h1
          exact hnotmem (vkey_injective this ▸ hkmem)
      have : augmentVirtual pb (kv :: rest) =
          augmentVirtual (pb ++ [(vkey kv.1, ∅)]) rest := by
        simp [augmentVirtual, hstep]
      rw [this, ih _ hfresh' hnodup']
      simp

/-- Reading index `i*nA + j` of a flattened matrix whose rows all have
length `nA` reads entry `(i, j)` (numpy's `ravel` indexing). -/
theorem flatten_getD (rows : List (List ℚ)) (nA : ℕ)
    (hrows : ∀ r ∈ rows, r.length = nA) (i j : ℕ)
    (hi : i < rows.length) (hj : j < nA) :
    rows.flatten.getD (i * nA + j) 0 = (rows.getD i []).getD j 0 := by
  induction rows generalizing i with
  | nil => simp at hi
  | cons r rest ih =>
      have hr : r.length = nA := hrows r (List.mem_cons_self r rest)
      cases i with
      | zero =>
          have hjr : j < r.length := hr ▸ hj
          simp only [List.flatten_cons, Nat.zero_mul, Nat.zero_add]
          rw [List.getD_append _ _ _ _ hjr]
          rfl
      | succ i' =>
          have hi' : i' < rest.length := by
            simpa using Nat.lt_of_succ_lt_succ hi
          have hidx : (i' + 1) * nA + j = r.length + (i' * nA + j) := by
            rw [hr]; ring
          simp only [List.flatten_cons]
          rw [hidx, List.getD_append_right _ _ _ _ (Nat.le_add_right _ _),
            Nat.add_sub_cancel_left]
          have := ih (fun r' hr' => hrows r' (List.mem_cons_of_mem r hr')) i' hi'
          simpa using this

theorem costMatrix_row_length (pb pa : Partition) (r : List ℚ)
    (hr : r ∈ costMatrix pb pa) : r.length = pa.length := by
  simp only [costMatrix, List.mem_map] at hr
  obtain ⟨bkv, _, rfl⟩ := hr
  simp

theorem costMatrix_length (pb pa : Partition) :
    (costMatrix pb pa).length = pb.length := by
  simp [costMatrix]

/-- Entry `(i, j)` of the cost matrix is the cost of the `i`-th before-cluster
against the `j`-th after-cluster. -/
theorem costMatrix_getD (pb pa : Partition) (i j : ℕ)
    (hi : i < pb.length) (hj : j < pa.length) :
    ((costMatrix pb pa).getD i []).getD j 0 =
      costEntry pa.length (pb.getD i ("", ∅)).2 (pa.getD j ("", ∅)).2 := by
  have h1 : (costMatrix pb pa).getD i [] =
      pa.map fun akv => costEntry pa.length (pb.getD i ("", ∅)).2 akv.2 := by
    rw [List.getD_eq_getElem _ _ (by simpa [costMatrix] using hi)]
    rw [List.getD_eq_getElem _ _ hi]
    simp [costMatrix]
  rw [h1]
  rw [List.getD_eq_getElem _ _ (by simpa using hj), List.getD_eq_getElem _ _ hj]
  simp

/-! ## Claim C2: the cost formula -/

/-- C2: for every subproblem with non-empty after-side, the flattened
cost-matrix coefficient for the `i`-th before-cluster `b` and the `j`-th
after-cluster `a` equals `-|b ∩ a| - 1 / (|A| * (1 + |b Δ a|))`, where `Δ`
is symmetric difference and `|A|` is the number of after-clusters. -/
theorem claim_C2_cost_formula (pb pa : Partition) (hA : pa ≠ [])
    (i j : ℕ) (hi : i < pb.length) (hj : j < pa.length) :
    (costMatrix pb pa).flatten.getD (i * pa.length + j) 0 =
      -(((pb.getD i ("", ∅)).2 ∩ (pa.getD j ("", ∅)).2).card : ℚ) -
        1 / ((pa.length : ℚ) *
          (1 + (((pb.getD i ("", ∅)).2 \ (pa.getD j ("", ∅)).2 ∪
                 (pa.getD j ("", ∅)).2 \ (pb.getD i ("", ∅)).2).card : ℚ))) := by
  rw [flatten_getD _ _ (costMatrix_row_length pb pa) i j
    (by simpa [costMatrix_length] using hi) hj]
  rw [costMatrix_getD pb pa i j hi hj]
  rfl

/-- Witness for C2 at the `_cost_matrix` docstring instance
`partition_before = {1: {A,B}}`, `partition_after = {3: {B}, 4: {A,C}}`
(items A=0, B=1, C=2), entry (0,0) = -1.25. -/
theorem claim_C2_cost_formula_witness :
    ([("3", ({1} : ItemSet)), ("4", {0, 2})] : Partition) ≠ [] ∧
    (costMatrix [("1", {0, 1})] [("3", {1}), ("4", {0, 2})]).flatten.getD 0 0 =
      -(((({0, 1} : ItemSet) ∩ {1}).card : ℚ) : ℚ) -
        1 / ((2 : ℚ) * (1 + ((({0, 1} : ItemSet) \ {1} ∪
          ({1} : ItemSet) \ {0, 1}).card : ℚ))) := by
  refine ⟨by decide, ?_⟩
  have h := claim_C2_cost_formula [("1", {0, 1})] [("3", {1}), ("4", {0, 2})]
    (by decide) 0 0 (by decide) (by decide)
  simpa using h

/-! ## Claim C9: bounds on the tie-break term -/

/-- C9 counterexample: for a subproblem with a single after-cluster and
`b Δ a = ∅`, the tie-break term equals exactly 1, so it is NOT always
strictly smaller than 1 as the claim states. -/
theorem claim_C9_counterexample :
    ¬ tieBreakTerm 1 (∅ : ItemSet) (∅ : ItemSet) < 1 := by
  have : tieBreakTerm 1 (∅ : ItemSet) (∅ : ItemSet) = 1 := by
    rw [tieBreakTerm]
    rw [show (symmDiffSet (∅ : ItemSet) ∅).card = 0 from by decide]
    norm_num
  rw [this]
  exact lt_irrefl 1

/-- C9 amended: for a non-empty after-side of size `|A|`, the tie-break term
is strictly positive and bounded above by `1/|A|` (hence by 1, with equality
possible when `|A| = 1` and `b Δ a = ∅`), and the intersection term
dominates: a pair with strictly larger intersection always has strictly
smaller cost. -/
theorem claim_C9_amended (nA : ℕ) (hA : 0 < nA) (b a b' a' : ItemSet) :
    0 < tieBreakTerm nA b a ∧
    tieBreakTerm nA b a ≤ 1 / (nA : ℚ) ∧
    tieBreakTerm nA b a ≤ 1 ∧
    ((b' ∩ a').card < (b ∩ a).card → costEntry nA b a < costEntry nA b' a') := by
  have hnq : (0 : ℚ) < (nA : ℚ) := by exact_mod_cast hA
  have hone : (1 : ℚ) ≤ (nA : ℚ) := by exact_mod_cast hA
  have hden : (0 : ℚ) < (nA : ℚ) * (1 + ((symmDiffSet b a).card : ℚ)) := by
    have : (0 : ℚ) ≤ ((symmDiffSet b a).card : ℚ) := by positivity
    nlinarith
  have hpos : 0 < tieBreakTerm nA b a := by
    rw [tieBreakTerm]; positivity
  have hbound : tieBreakTerm nA b a ≤ 1 / (nA : ℚ) := by
    rw [tieBreakTerm]
    apply one_div_le_one_div_of_le hnq
    have : (0 : ℚ) ≤ ((symmDiffSet b a).card : ℚ) := by positivity
    nlinarith
  have hbound1 : tieBreakTerm nA b a ≤ 1 := by
    calc tieBreakTerm nA b a ≤ 1 / (nA : ℚ) := hbound
    _ ≤ 1 := by
        rw [div_le_one hnq]; exact hone
  refine ⟨hpos, hbound, hbound1, ?_⟩
  intro hlt
  have hcast : ((b' ∩ a').card : ℚ) + 1 ≤ ((b ∩ a).card : ℚ) := by
    exact_mod_cast hlt
  have hbound1' : tieBreakTerm nA b' a' ≤ 1 := by
    have h0 : (0 : ℚ) ≤ ((symmDiffSet b' a').card : ℚ) := by positivity
    have hden' : (0 : ℚ) < (nA : ℚ) * (1 + ((symmDiffSet b' a').card : ℚ)) := by
      nlinarith
    rw [tieBreakTerm, div_le_one hden']
    nlinarith
  rw [costEntry_eq_neg_inter_sub_tie, costEntry_eq_neg_inter_sub_tie]
  linarith

/-- Witness for C9 amended at `|A| = 2`, `b = {0,1}`, `a = {1}`,
`b' = {0}`, `a' = {1}` (intersections 1 > 0). -/
theorem claim_C9_amended_witness :
    (0 : ℕ) < 2 ∧
    ((({0} : ItemSet) ∩ {1}).card < (({0, 1} : ItemSet) ∩ {1}).card ∧
     costEntry 2 {0, 1} {1} < costEntry 2 {0} {1}) := by
  refine ⟨by decide, by decide, ?_⟩
  exact (claim_C9_amended 2 (by decide) {0, 1} {1} {0} {1}).2.2.2 (by decide)

/-! ## Claim C4: mutation of the inputs -/

/-- An oracle standing for a `linprog` run that returns the integral optimum
`x = [1, 0]` of the one-real-cluster, one-after-cluster instance. -/
def singlePairOracle : LinprogOracle := fun _ => ⟨[1, 0], 0, true⟩

/-- C4 counterexample: the solver does NOT leave its before-partition
unchanged — after `_match_clusters({"1": {0}}, {"2": {0}})` the caller's
before-partition holds the extra virtual cluster `"v2"`. -/
theorem claim_C4_counterexample :
    (matchClusters singlePairOracle [("1", {0})] [("2", {0})]).2 ≠
      [("1", {0})] := by decide

/-- C4 amended: the solver call returns its before-partition argument in a
mutated state: the original entries are preserved as a prefix, followed by
exactly one empty virtual cluster `'v' + k` per after-key `k` (assuming the
virtual keys are fresh, as in every input whose keys do not start with 'v');
the after-partition is never touched. -/
theorem claim_C4_amended (solver : LinprogOracle) (pb pa : Partition)
    (maxiter : ℕ)
    (hfresh : ∀ k ∈ keysOf pa, vkey k ∉ keysOf pb)
    (hnodup : (keysOf pa).Nodup) :
    (matchClusters solver pb pa maxiter).2 =
      pb ++ pa.map fun kv => (vkey kv.1, ∅) := by
  show augmentVirtual pb pa = _
  exact augmentVirtual_eq_append pb pa hfresh hnodup

/-- Witness for C4 amended at the counterexample instance. -/
theorem claim_C4_amended_witness :
    (∀ k ∈ keysOf [(("2", {0}) : String × ItemSet)],
      vkey k ∉ keysOf [(("1", {0}) : String × ItemSet)]) ∧
    (matchClusters singlePairOracle [("1", {0})] [("2", {0})]).2 =
      [("1", {0}), ("v2", ∅)] := by
  refine ⟨by decide, ?_⟩
  rw [claim_C4_amended singlePairOracle [("1", {0})] [("2", {0})] 5000
    (by decide) (by decide)]
  rfl

/-! ## Claim C6: solver non-convergence is not surfaced -/

/-- An oracle standing for a `linprog` run that hit the iteration limit:
scipy reports `status = 1`, `success = False`, and `solution.x` holds the
(uncertified) current vertex. -/
def nonConvergedOracle : LinprogOracle := fun _ => ⟨[1, 0], 1, false⟩

/-- The same solution vector reported as a certified optimum. -/
def convergedTwinOracle : LinprogOracle := fun _ => ⟨[1, 0], 0, true⟩

/-- C6 counterexample: when the solver reports non-convergence
(`success = False`, `status = 1`), `_match_clusters` does not fail — it
still decodes `solution.x` and returns an ordinary bucket triple. -/
theorem claim_C6_counterexample :
    (nonConvergedOracle (buildLinprogInput
      [("1", {0}), ("v2", ∅)] [("2", {0})] 5000)).success = false ∧
    (matchClusters nonConvergedOracle [("1", {0})] [("2", {0})]).1 =
      ⟨[("1", "2")], [], []⟩ := by
  exact ⟨rfl, by decide⟩

/-- C6 amended: `_match_clusters` never inspects the solver's `status` or
`success` fields; its result depends on the returned solution vector only,
so an exhausted iteration budget is silently ignored rather than surfaced
as a failure. -/
theorem claim_C6_amended (pb pa : Partition) (maxiter : ℕ)
    (s₁ s₂ : LinprogOracle) (hx : ∀ inp, (s₁ inp).x = (s₂ inp).x) :
    matchClusters s₁ pb pa maxiter = matchClusters s₂ pb pa maxiter := by
  simp only [matchClusters, hx]

/-- Witness for C6 amended: the non-converged run and its certified twin
produce identical results. -/
theorem claim_C6_amended_witness :
    (nonConvergedOracle (buildLinprogInput [] [] 0)).x =
      (convergedTwinOracle (buildLinprogInput [] [] 0)).x ∧
    matchClusters nonConvergedOracle [("1", {0})] [("2", {0})] =
      matchClusters convergedTwinOracle [("1", {0})] [("2", {0})] := by
  exact ⟨rfl, claim_C6_amended [("1", {0})] [("2", {0})] 5000
    nonConvergedOracle convergedTwinOracle (fun _ => rfl)⟩

/-! ## Claims C3 and C10: the shape of `do_matching`'s buckets -/

/-- The `do_matching` fold appends, per subproblem, each *nonempty* solver
bucket as a single element: closed form of the accumulation loop. -/
theorem doMatching_foldl_closed (solver : LinprogOracle)
    (subs : List (Partition × Partition)) (acc : DoMatchingResult) :
    subs.foldl (doMatchingStep solver) acc =
      ⟨acc.matched ++
        ((subs.map fun sub => (solvedResult solver sub).pairs).filter (· ≠ [])),
       acc.newKeys ++
        ((subs.map fun sub => (solvedResult solver sub).newKeys).filter (· ≠ [])),
       acc.removed ++
        ((subs.map fun sub => (solvedResult solver sub).removed).filter (· ≠ []))⟩ := by
  induction subs generalizing acc with
  | nil => simp
  | cons sub rest ih =>
      rw [List.foldl_cons, ih]
      simp only [List.map_cons, List.filter_cons]
      by_cases h1 : (solvedResult solver sub).pairs = [] <;>
        by_cases h2 : (solvedResult solver sub).newKeys = [] <;>
          by_cases h3 : (solvedResult solver sub).removed = [] <;>
            simp [doMatchingStep, h1, h2, h3]

/-- C10: each bucket `do_matching` returns is exactly the sequence of
*nonempty* per-subproblem solver buckets, appended whole — a subproblem
with an empty matched (or new, or removed) bucket contributes nothing, so
no empty entry ever appears. -/
theorem claim_C10_no_empty_entries (solver : LinprogOracle)
    (pb pa : RawPartition) (subs : List (Partition × Partition))
    (hdiv : divideIntoSubproblems pb pa = .ok subs) :
    doMatching solver pb pa = .ok
      ⟨(subs.map fun sub => (solvedResult solver sub).pairs).filter (· ≠ []),
       (subs.map fun sub => (solvedResult solver sub).newKeys).filter (· ≠ []),
       (subs.map fun sub => (solvedResult solver sub).removed).filter (· ≠ [])⟩ := by
  simp only [doMatching, hdiv]
  rw [doMatching_foldl_closed]
  simp

/-- An oracle standing for the `linprog` runs on the four subproblems of the
`do_matching` docstring example: every subproblem there is a single
after-cluster matched to its unique overlapping real cluster (2 edge
variables, optimum `[1, 0]`) or a virtual-only / after-less instance. -/
def docstringOracle : LinprogOracle := fun inp =>
  ⟨if inp.c.length = 2 then [1, 0]
    else if inp.c.length = 1 then [1] else [], 0, true⟩

/-- Witness for C10 at the `do_matching` docstring instance. -/
theorem claim_C10_no_empty_entries_witness :
    divideIntoSubproblems
        [("1", .items [0]), ("2", .items [1]), ("3", .items [2])]
        [("4", .items [0]), ("5", .items [1]), ("6", .items [3])] =
      .ok [([("1", {0})], [("4", {0})]),
           ([("2", {1})], [("5", {1})]),
           ([("3", {2})], []),
           ([], [("6", {3})])] ∧
    doMatching docstringOracle
        [("1", .items [0]), ("2", .items [1]), ("3", .items [2])]
        [("4", .items [0]), ("5", .items [1]), ("6", .items [3])] =
      .ok ⟨[[("1", "4")], [("2", "5")]], [["6"]], [["3"]]⟩ := by
  refine ⟨by decide, ?_⟩
  rw [claim_C10_no_empty_entries docstringOracle
    [("1", .items [0]), ("2", .items [1]), ("3", .items [2])]
    [("4", .items [0]), ("5", .items [1]), ("6", .items [3])]
    [([("1", {0})], [("4", {0})]),
     ([("2", {1})], [("5", {1})]),
     ([("3", {2})], []),
     ([], [("6", {3})])] (by decide)]
  decide

/-- C3: evaluating `do_matching` at its own docstring example
(`signatures_before = {"1": ["A"], "2": ["B"], "3": ["C"]}`,
`signatures_after = {"4": ["A"], "5": ["B"], "6": ["D"]}`, items A=0, B=1,
C=2, D=3) yields NESTED buckets `([[("1","4")], [("2","5")]], [["6"]],
[["3"]])` — each `.append(...)` adds a whole per-subproblem list — whereas
the docstring and the spec promise the flat concatenation
`([(1, 4), (2, 5)], [6], [3])`. -/
theorem claim_C3_nested_buckets :
    doMatching docstringOracle
        [("1", .items [0]), ("2", .items [1]), ("3", .items [2])]
        [("4", .items [0]), ("5", .items [1]), ("6", .items [3])] =
      .ok ⟨[[("1", "4")], [("2", "5")]], [["6"]], [["3"]]⟩ ∧
    ([[("1", "4")], [("2", "5")]] : List (List (String × String))) ≠
      [[("1", "4"), ("2", "5")]] := by
  exact ⟨by decide, by decide⟩

/-! ## Linear-constraint bridges: what feasibility says about row/column sums -/

/-- Summing over the `m*n` flattened edge indices is summing over the grid. -/
theorem sum_range_mul (m n : ℕ) (f : ℕ → ℚ) :
    ∑ e ∈ Finset.range (m * n), f e =
      ∑ i ∈ Finset.range m, ∑ j ∈ Finset.range n, f (i * n + j) := by
  induction m with
  | zero => simp
  | succ m ih =>
      rw [show (m + 1) * n = m * n + n from by ring, Finset.sum_range_add,
        Finset.sum_range_succ, ih]

/-- Reading the `i`-th entry of a map over `List.range`. -/
theorem getD_map_range {α : Type} (n i : ℕ) (hi : i < n) (f : ℕ → α) (d : α) :
    ((List.range n).map f).getD i d = f i := by
  rw [List.getD_eq_getElem _ _ (by simpa using hi)]
  simp

theorem getD_replicate (n i : ℕ) (hi : i < n) (v : ℚ) :
    (List.replicate n v).getD i 0 = v := by
  rw [List.getD_eq_getElem _ _ (by simpa using hi)]
  simp

/-- Row `i` of `A_ub` dotted with `x` is the sum of row `i` of the
assignment variables: the "agent `i` used at most once" quantity. -/
theorem dot_A_ub_row (nB nA : ℕ) (x : List ℚ) (i : ℕ) (hi : i < nB) :
    dot ((A_ubMatrix nB nA).getD i []) x =
      ∑ j ∈ Finset.range nA, x.getD (i * nA + j) 0 := by
  rw [show (A_ubMatrix nB nA).getD i [] =
      (List.range (nB * nA)).map
        (fun e => if i * nA ≤ e ∧ e < (i + 1) * nA then (1 : ℚ) else 0) from
    getD_map_range nB i hi _ []]
  rw [dot]
  simp only [List.length_map, List.length_range]
  have hentry : ∀ e < nB * nA,
      ((List.range (nB * nA)).map
        (fun e => if i * nA ≤ e ∧ e < (i + 1) * nA then (1 : ℚ) else 0)).getD e 0 =
      if i * nA ≤ e ∧ e < (i + 1) * nA then (1 : ℚ) else 0 := by
    intro e he
    exact getD_map_range _ e he _ 0
  rw [Finset.sum_congr rfl fun e he => by
    rw [hentry e (Finset.mem_range.mp he)]]
  rw [sum_range_mul nB nA
    (fun e => (if i * nA ≤ e ∧ e < (i + 1) * nA then (1 : ℚ) else 0) * x.getD e 0)]
  have hinner : ∀ i' ∈ Finset.range nB,
      (∑ j ∈ Finset.range nA,
        (if i * nA ≤ i' * nA + j ∧ i' * nA + j < (i + 1) * nA then (1 : ℚ) else 0) *
          x.getD (i' * nA + j) 0) =
      if i' = i then ∑ j ∈ Finset.range nA, x.getD (i * nA + j) 0 else 0 := by
    intro i' _
    by_cases hii : i' = i
    · subst hii
      rw [if_pos rfl]
      refine Finset.sum_congr rfl fun j hj => ?_
      have hj' : j < nA := Finset.mem_range.mp hj
      have hcond : i' * nA ≤ i' * nA + j ∧ i' * nA + j < (i' + 1) * nA := by
        constructor
        · exact Nat.le_add_right _ _
        · calc i' * nA + j < i' * nA + nA := by omega
          _ = (i' + 1) * nA := by ring
      rw [if_pos hcond, one_mul]
    · rw [if_neg hii]
      refine Finset.sum_eq_zero fun j hj => ?_
      have hj' : j < nA := Finset.mem_range.mp hj
      have hcond : ¬ (i * nA ≤ i' * nA + j ∧ i' * nA + j < (i + 1) * nA) := by
        rcases Nat.lt_or_ge i' i with hlt | hge
        · intro ⟨h1, _⟩
          have : i' * nA + j < i * nA := by
            calc i' * nA + j < (i' + 1) * nA := by
                  calc i' * nA + j < i' * nA + nA := by omega
                  _ = (i' + 1) * nA := by ring
            _ ≤ i * nA := Nat.mul_le_mul_right nA hlt
          omega
        · have hgt : i < i' := lt_of_le_of_ne hge (fun h => hii h.symm)
          intro ⟨_, h2⟩
          have : (i + 1) * nA ≤ i' * nA := Nat.mul_le_mul_right nA hgt
          omega
      rw [if_neg hcond, zero_mul]
  rw [Finset.sum_congr rfl hinner]
  rw [Finset.sum_ite_eq' (Finset.range nB) i
    (fun _ => ∑ j ∈ Finset.range nA, x.getD (i * nA + j) 0)]
  simp [hi]

/-- Row `j` of `A_eq` dotted with `x` is the sum of column `j` of the
assignment variables: the "task `j` assigned exactly once" quantity. -/
theorem dot_A_eq_row (nB nA : ℕ) (x : List ℚ) (j : ℕ) (hj : j < nA) :
    dot ((A_eqMatrix nB nA).getD j []) x =
      ∑ i ∈ Finset.range nB, x.getD (i * nA + j) 0 := by
  rw [show (A_eqMatrix nB nA).getD j [] =
      (List.range (nB * nA)).map
        (fun e => if e % nA = j then (1 : ℚ) else 0) from
    getD_map_range nA j hj _ []]
  rw [dot]
  simp only [List.length_map, List.length_range]
  rw [Finset.sum_congr rfl fun e he => by
    rw [getD_map_range (nB * nA) e (Finset.mem_range.mp he)
      (fun e => if e % nA = j then (1 : ℚ) else 0) 0]]
  rw [sum_range_mul nB nA
    (fun e => (if e % nA = j then (1 : ℚ) else 0) * x.getD e 0)]
  refine Finset.sum_congr rfl fun i _ => ?_
  have hmod : ∀ j' < nA, (i * nA + j') % nA = j' := by
    intro j' hj'
    rw [Nat.mul_comm i nA, Nat.mul_add_mod nA i j']
    exact Nat.mod_eq_of_lt hj'
  rw [show (∑ j' ∈ Finset.range nA,
      (if (i * nA + j') % nA = j then (1 : ℚ) else 0) * x.getD (i * nA + j') 0) =
      ∑ j' ∈ Finset.range nA,
        (if j' = j then x.getD (i * nA + j') 0 else 0) from
    Finset.sum_congr rfl fun j' hj' => by
      rw [hmod j' (Finset.mem_range.mp hj')]
      by_cases h : j' = j <;> simp [h]]
  rw [Finset.sum_ite_eq' (Finset.range nA) j
    (fun j' => x.getD (i * nA + j') 0)]
  simp [hj]

/-- What `FeasibleFor` says about the input `_match_clusters` builds:
every row of assignment variables sums to at most 1, every column sums to
exactly 1, and all variables are nonnegative. -/
theorem feasible_row_col (pbAug pa : Partition) (mi : ℕ) (x : List ℚ)
    (hF : FeasibleFor (buildLinprogInput pbAug pa mi) x) :
    (∀ i < pbAug.length,
      (∑ j ∈ Finset.range pa.length, x.getD (i * pa.length + j) 0) ≤ 1) ∧
    (∀ j < pa.length,
      (∑ i ∈ Finset.range pbAug.length, x.getD (i * pa.length + j) 0) = 1) ∧
    (∀ v ∈ x, 0 ≤ v) := by
  obtain ⟨hub, heq, hnn⟩ := hF
  refine ⟨fun i hi => ?_, fun j hj => ?_, hnn⟩
  · have hlen : (buildLinprogInput pbAug pa mi).A_ub.length = pbAug.length := by
      simp [buildLinprogInput, A_ubMatrix]
    have := hub i (by rw [hlen]; exact hi)
    rw [show (buildLinprogInput pbAug pa mi).A_ub = A_ubMatrix pbAug.length pa.length
        from rfl] at this
    rw [dot_A_ub_row pbAug.length pa.length x i hi] at this
    rw [show (buildLinprogInput pbAug pa mi).b_ub = List.replicate pbAug.length 1
        from rfl] at this
    rwa [getD_replicate pbAug.length i hi 1] at this
  · have hlen : (buildLinprogInput pbAug pa mi).A_eq.length = pa.length := by
      simp [buildLinprogInput, A_eqMatrix]
    have := heq j (by rw [hlen]; exact hj)
    rw [show (buildLinprogInput pbAug pa mi).A_eq = A_eqMatrix pbAug.length pa.length
        from rfl] at this
    rw [dot_A_eq_row pbAug.length pa.length x j hj] at this
    rw [show (buildLinprogInput pbAug pa mi).b_eq = List.replicate pa.length 1
        from rfl] at this
    rwa [getD_replicate pa.length j hj 1] at this

/-! ## Closed forms of the decode loop -/

/-- The matched pairs contributed by a given list of decode rows. -/
def decodePairsOf (bkeys akeys : List String) (lenFirst : ℕ) (x : List ℚ)
    (rows : List ℕ) : List (String × String) :=
  rows.filterMap fun i =>
    if i < lenFirst then
      (decodeRow x akeys.length i).map fun j => (bkeys.getD i "", akeys.getD j "")
    else none

/-- The new keys contributed by a given list of decode rows. -/
def decodeNewOf (akeys : List String) (lenFirst : ℕ) (x : List ℚ)
    (rows : List ℕ) : List String :=
  rows.filterMap fun i =>
    if i < lenFirst then none
    else (decodeRow x akeys.length i).map fun j => akeys.getD j ""

/-- The removed keys contributed by a given list of decode rows. -/
def decodeRemovedOf (bkeys akeys : List String) (lenFirst : ℕ) (x : List ℚ)
    (rows : List ℕ) : List String :=
  rows.filterMap fun i =>
    if i < lenFirst then
      match decodeRow x akeys.length i with
      | some _ => none
      | none => some (bkeys.getD i "")
    else none

theorem decode_foldl_closed (bkeys akeys : List String) (lenFirst : ℕ)
    (x : List ℚ) (rows : List ℕ) (acc : MatchResult) :
    rows.foldl (decodeStep bkeys akeys lenFirst x) acc =
      ⟨acc.pairs ++ decodePairsOf bkeys akeys lenFirst x rows,
       acc.newKeys ++ decodeNewOf akeys lenFirst x rows,
       acc.removed ++ decodeRemovedOf bkeys akeys lenFirst x rows⟩ := by
  induction rows generalizing acc with
  | nil => simp [decodePairsOf, decodeNewOf, decodeRemovedOf]
  | cons i rest ih =>
      rw [List.foldl_cons, ih]
      rcases hrow : decodeRow x akeys.length i with _ | j <;>
        by_cases hi : i < lenFirst <;>
          simp [decodeStep, decodePairsOf, decodeNewOf, decodeRemovedOf,
            List.filterMap_cons, hrow, hi]

theorem decodeSolution_closed (bkeys akeys : List String) (lenFirst : ℕ)
    (x : List ℚ) :
    decodeSolution bkeys akeys lenFirst x =
      ⟨decodePairsOf bkeys akeys lenFirst x
         (List.range (lenFirst + akeys.length)),
       decodeNewOf akeys lenFirst x (List.range (lenFirst + akeys.length)),
       decodeRemovedOf bkeys akeys lenFirst x
         (List.range (lenFirst + akeys.length))⟩ := by
  rw [decodeSolution, decode_foldl_closed]
  simp

/-- Each decode row contributes exactly one before-key occurrence (to the
matched pairs' first components or to the removed bucket) when it is a real
row whose key is `k`, and none otherwise. -/
theorem count_fst_add_removed (bkeys akeys : List String) (lenFirst : ℕ)
    (x : List ℚ) (rows : List ℕ) (k : String) :
    ((decodePairsOf bkeys akeys lenFirst x rows).map Prod.fst).count k +
      (decodeRemovedOf bkeys akeys lenFirst x rows).count k =
    rows.countP fun i => decide (i < lenFirst ∧ bkeys.getD i "" = k) := by
  induction rows with
  | nil => simp [decodePairsOf, decodeRemovedOf]
  | cons i rest ih =>
      rcases hrow : decodeRow x akeys.length i with _ | j <;>
        by_cases hi : i < lenFirst <;>
          by_cases hk : bkeys.getD i "" = k <;>
            simp [decodePairsOf, decodeRemovedOf, List.filterMap_cons, hrow,
              hi, hk, List.countP_cons, List.count_cons] at ih ⊢ <;>
              omega

/-- Each decode row whose first unit column maps to after-key `k`
contributes exactly one occurrence of `k`, to the matched pairs' second
components (real row) or to the new bucket (virtual row). -/
theorem count_snd_add_new (bkeys akeys : List String) (lenFirst : ℕ)
    (x : List ℚ) (rows : List ℕ) (k : String) :
    ((decodePairsOf bkeys akeys lenFirst x rows).map Prod.snd).count k +
      (decodeNewOf akeys lenFirst x rows).count k =
    rows.countP fun i =>
      decide ((decodeRow x akeys.length i).map (fun j => akeys.getD j "") =
        some k) := by
  induction rows with
  | nil => simp [decodePairsOf, decodeNewOf]
  | cons i rest ih =>
      rcases hrow : decodeRow x akeys.length i with _ | j
      · by_cases hi : i < lenFirst <;>
          simp [decodePairsOf, decodeNewOf, List.filterMap_cons, hrow,
            hi, List.countP_cons, List.count_cons] at ih ⊢ <;>
            omega
      · by_cases hi : i < lenFirst <;>
          by_cases hk : akeys.getD j "" = k <;>
            simp [decodePairsOf, decodeNewOf, List.filterMap_cons, hrow,
              hi, hk, List.countP_cons, List.count_cons] at ih ⊢ <;>
              omega

/-! ## The decode row scan under a feasible 0/1 solution -/

/-- Two distinct unit entries contribute at least 2 to a nonnegative sum. -/
theorem pair_le_sum (n : ℕ) (f : ℕ → ℚ) (hnn : ∀ j < n, 0 ≤ f j)
    (j j' : ℕ) (hj : j < n) (hj' : j' < n) (hne : j ≠ j') :
    f j + f j' ≤ ∑ e ∈ Finset.range n, f e := by
  have hsub : ({j, j'} : Finset ℕ) ⊆ Finset.range n := by
    intro a ha
    rcases Finset.mem_insert.mp ha with rfl | ha
    · exact Finset.mem_range.mpr hj
    · exact Finset.mem_range.mpr (by
        rw [Finset.mem_singleton.mp ha]; exact hj')
  calc f j + f j' = ∑ e ∈ ({j, j'} : Finset ℕ), f e := (Finset.sum_pair hne).symm
  _ ≤ ∑ e ∈ Finset.range n, f e := by
      refine Finset.sum_le_sum_of_subset_of_nonneg hsub fun e he _ => ?_
      exact hnn e (Finset.mem_range.mp he)

/-- When row `i` of the solution is 0/1-valued and sums to at most 1, the
decode scan finds column `j` iff the variable of edge `(i, j)` equals 1. -/
theorem decodeRow_eq_some_iff (x : List ℚ) (nA i : ℕ)
    (h01 : ∀ j < nA, x.getD (i * nA + j) 0 = 0 ∨ x.getD (i * nA + j) 0 = 1)
    (hrow : (∑ j ∈ Finset.range nA, x.getD (i * nA + j) 0) ≤ 1) (j : ℕ) :
    decodeRow x nA i = some j ↔ j < nA ∧ x.getD (i * nA + j) 0 = 1 := by
  constructor
  · intro h
    have h' : (List.range nA).find?
        (fun j => x.getD (i * nA + j) 0 == 1) = some j := h
    have hmem : j ∈ List.range nA := List.mem_of_find?_eq_some h'
    have hp := List.find?_some h'
    exact ⟨List.mem_range.mp hmem, beq_iff_eq.mp (by simpa using hp)⟩
  · rintro ⟨hj, hx⟩
    have hex : ∃ e ∈ List.range nA, (x.getD (i * nA + e) 0 == 1) = true :=
      ⟨j, List.mem_range.mpr hj, beq_iff_eq.mpr hx⟩
    obtain ⟨j', hj'⟩ := Option.isSome_iff_exists.mp
      (List.find?_isSome.mpr hex)
    have hmem' : j' ∈ List.range nA := List.mem_of_find?_eq_some hj'
    have hpb := List.find?_some hj'
    have hp' : x.getD (i * nA + j') 0 = 1 := beq_iff_eq.mp (by simpa using hpb)
    have hjj : j' = j := by
      by_contra hne
      have hnn : ∀ e < nA, 0 ≤ x.getD (i * nA + e) 0 := by
        intro e he
        rcases h01 e he with h | h <;> rw [h] <;> norm_num
      have hsum2 : x.getD (i * nA + j') 0 + x.getD (i * nA + j) 0 ≤
          ∑ e ∈ Finset.range nA, x.getD (i * nA + e) 0 :=
        pair_le_sum nA (fun e => x.getD (i * nA + e) 0) hnn
          j' j (List.mem_range.mp hmem') hj hne
      rw [hp', hx] at hsum2
      linarith
    rw [hjj] at hj'
    exact hj'

/-- Counting positions whose entry is `k` counts occurrences of `k`. -/
theorem countP_range_getD (l : List String) (k : String) :
    ((List.range l.length).countP fun i => decide (l.getD i "" = k)) =
      l.count k := by
  induction l with
  | nil => simp
  | cons a t ih =>
      rw [show (a :: t).length = t.length + 1 from rfl,
        List.range_succ_eq_map, List.countP_cons, List.countP_map]
      have h2 : (List.range t.length).countP
          ((fun i => decide ((a :: t).getD i "" = k)) ∘ (· + 1)) =
          (List.range t.length).countP fun i => decide (t.getD i "" = k) :=
        List.countP_congr fun i _ => Iff.rfl
      rw [h2, ih]
      by_cases hk : a = k <;> simp [hk, List.count_cons] <;> omega

/-- A 0/1-valued family summing to 1 over `range n` has exactly one unit
entry. -/
theorem countP_range_eq_one_of_sum_one (n : ℕ) (f : ℕ → ℚ)
    (h01 : ∀ i < n, f i = 0 ∨ f i = 1)
    (hs : ∑ i ∈ Finset.range n, f i = 1) :
    ((List.range n).countP fun i => decide (f i = 1)) = 1 := by
  induction n with
  | zero => simp at hs
  | succ n ih =>
      rw [List.range_succ, List.countP_append]
      rw [Finset.sum_range_succ] at hs
      rcases h01 n (Nat.lt_succ_self n) with h | h
      · rw [h, add_zero] at hs
        rw [ih (fun i hi => h01 i (Nat.lt_succ_of_lt hi)) hs]
        simp [h]
      · rw [h] at hs
        have hz : ∑ i ∈ Finset.range n, f i = 0 := by linarith
        have hzero : ∀ i ∈ Finset.range n, f i = 0 :=
          (Finset.sum_eq_zero_iff_of_nonneg fun i hi => by
            rcases h01 i (Nat.lt_succ_of_lt (Finset.mem_range.mp hi)) with h' | h' <;>
              rw [h'] <;> norm_num).mp hz
        have hcount0 : ((List.range n).countP fun i => decide (f i = 1)) = 0 := by
          refine List.countP_eq_zero.mpr fun a ha => ?_
          have h0 : f a = 0 := hzero a (Finset.mem_range.mpr (List.mem_range.mp ha))
          simp [h0]
        rw [hcount0]
        simp [h]

theorem decodeSolution_pairs (bkeys akeys : List String) (lenFirst : ℕ)
    (x : List ℚ) :
    (decodeSolution bkeys akeys lenFirst x).pairs =
      decodePairsOf bkeys akeys lenFirst x
        (List.range (lenFirst + akeys.length)) := by
  rw [decodeSolution_closed]

theorem decodeSolution_newKeys (bkeys akeys : List String) (lenFirst : ℕ)
    (x : List ℚ) :
    (decodeSolution bkeys akeys lenFirst x).newKeys =
      decodeNewOf akeys lenFirst x (List.range (lenFirst + akeys.length)) := by
  rw [decodeSolution_closed]

theorem decodeSolution_removed (bkeys akeys : List String) (lenFirst : ℕ)
    (x : List ℚ) :
    (decodeSolution bkeys akeys lenFirst x).removed =
      decodeRemovedOf bkeys akeys lenFirst x
        (List.range (lenFirst + akeys.length)) := by
  rw [decodeSolution_closed]

/-- Positions holding the same value of a duplicate-free list coincide. -/
theorem nodup_getD_inj {α : Type} (l : List α) (d : α) (hl : l.Nodup)
    (j j₀ : ℕ) (hj : j < l.length) (hj₀ : j₀ < l.length) (k : α)
    (h1 : l.getD j d = k) (h2 : l.getD j₀ d = k) : j = j₀ := by
  have hinj := List.nodup_iff_injective_get.mp hl
  have hg : l.get ⟨j, hj⟩ = l.get ⟨j₀, hj₀⟩ := by
    rw [List.getD_eq_getElem _ _ hj] at h1
    rw [List.getD_eq_getElem _ _ hj₀] at h2
    simpa [h1, h2] using h1.trans h2.symm
  have h3 : (⟨j, hj⟩ : Fin l.length) = ⟨j₀, hj₀⟩ := hinj hg
  simpa using h3

/-! ## Completeness of the decoded buckets (solver level) -/

/-- Solver-level completeness of `_match_clusters`: whenever the LP oracle
returns a feasible 0/1 solution for the assignment program the solver
builds (as `scipy.optimize.linprog` does on these instances), every
before-key occurs exactly once counted across the matched pairs' first
components and the removed bucket, and every after-key occurs exactly once
counted across the matched pairs' second components and the new bucket —
given duplicate-free keys and no before-key colliding with a virtual name. -/
theorem matchClusters_completeness (solver : LinprogOracle) (pb pa : Partition)
    (maxiter : ℕ)
    (hnb : (keysOf pb).Nodup) (hna : (keysOf pa).Nodup)
    (hfresh : ∀ k ∈ keysOf pa, vkey k ∉ keysOf pb)
    (hF : FeasibleFor (buildLinprogInput (augmentVirtual pb pa) pa maxiter)
      (solver (buildLinprogInput (augmentVirtual pb pa) pa maxiter)).x)
    (h01 : ZeroOneOn ((augmentVirtual pb pa).length * pa.length)
      (solver (buildLinprogInput (augmentVirtual pb pa) pa maxiter)).x) :
    (∀ k ∈ keysOf pb,
      ((matchClusters solver pb pa maxiter).1.pairs.map Prod.fst).count k +
        ((matchClusters solver pb pa maxiter).1.removed).count k = 1) ∧
    (∀ k ∈ keysOf pa,
      ((matchClusters solver pb pa maxiter).1.pairs.map Prod.snd).count k +
        ((matchClusters solver pb pa maxiter).1.newKeys).count k = 1) := by
  have haug : augmentVirtual pb pa = pb ++ pa.map fun kv => (vkey kv.1, ∅) :=
    augmentVirtual_eq_append pb pa hfresh hna
  set pbAug := augmentVirtual pb pa with hpbAugDef
  set x := (solver (buildLinprogInput pbAug pa maxiter)).x with hxDef
  have hlenAug : pbAug.length = pb.length + pa.length := by
    rw [haug]; simp
  have hlenFirst : pbAug.length - pa.length = pb.length := by omega
  have hres : (matchClusters solver pb pa maxiter).1 =
      decodeSolution (keysOf pbAug) (keysOf pa) (pbAug.length - pa.length) x := rfl
  obtain ⟨hrow, hcol, hnn⟩ := feasible_row_col pbAug pa maxiter x hF
  have h01e : ∀ i < pbAug.length, ∀ j < pa.length,
      x.getD (i * pa.length + j) 0 = 0 ∨ x.getD (i * pa.length + j) 0 = 1 := by
    intro i hi j hj
    apply h01
    calc i * pa.length + j < (i + 1) * pa.length := by
          calc i * pa.length + j < i * pa.length + pa.length := by omega
          _ = (i + 1) * pa.length := by ring
    _ ≤ pbAug.length * pa.length := Nat.mul_le_mul_right _ hi
  have hkeysAug : keysOf pbAug = keysOf pb ++ pa.map fun kv => vkey kv.1 := by
    rw [haug, keysOf_append]
    simp [keysOf]
  constructor
  · intro k hk
    rw [hres, hlenFirst, decodeSolution_pairs, decodeSolution_removed,
      count_fst_add_removed]
    simp only [keysOf_length]
    rw [List.range_add, List.countP_append]
    have hsecond : ((List.range pa.length).map (pb.length + ·)).countP
        (fun i => decide (i < pb.length ∧ (keysOf pbAug).getD i "" = k)) = 0 := by
      rw [List.countP_map]
      refine List.countP_eq_zero.mpr fun a _ => ?_
      simp only [Function.comp_apply, decide_eq_true_eq]
      rintro ⟨habs, -⟩
      omega
    rw [hsecond, Nat.add_zero]
    have hcongr : (List.range pb.length).countP
        (fun i => decide (i < pb.length ∧ (keysOf pbAug).getD i "" = k)) =
        (List.range pb.length).countP
          (fun i => decide ((keysOf pb).getD i "" = k)) := by
      refine List.countP_congr fun i hi => ?_
      have hi' : i < pb.length := List.mem_range.mp hi
      have hgetD : (keysOf pbAug).getD i "" = (keysOf pb).getD i "" := by
        rw [hkeysAug]
        exact List.getD_append _ _ _ _ (by simpa [keysOf] using hi')
      simp only [decide_eq_true_eq, hgetD, hi', true_and]
    rw [hcongr]
    rw [show List.range pb.length = List.range (keysOf pb).length from by
      rw [keysOf_length]]
    rw [countP_range_getD]
    exact List.count_eq_one_of_mem hnb hk
  · intro k hk
    rw [hres, hlenFirst, decodeSolution_pairs, decodeSolution_newKeys,
      count_snd_add_new]
    simp only [keysOf_length]
    obtain ⟨⟨j₀, hj₀lt⟩, hj₀⟩ := List.mem_iff_get.mp hk
    have hj₀lt' : j₀ < pa.length := by simpa [keysOf] using hj₀lt
    have hj₀get : (keysOf pa).getD j₀ "" = k := by
      rw [List.getD_eq_getElem _ _ hj₀lt]
      simpa using hj₀
    have huniq : ∀ j < pa.length, (keysOf pa).getD j "" = k → j = j₀ := by
      intro j hj hjk
      exact nodup_getD_inj (keysOf pa) "" hna j j₀
        (by simpa [keysOf] using hj) hj₀lt k hjk hj₀get
    have hcongr : (List.range (pb.length + pa.length)).countP
        (fun i => decide ((decodeRow x pa.length i).map
          (fun j => (keysOf pa).getD j "") = some k)) =
        (List.range (pb.length + pa.length)).countP
          (fun i => decide (x.getD (i * pa.length + j₀) 0 = 1)) := by
      refine List.countP_congr fun i hi => ?_
      have hiB : i < pbAug.length := by
        have := List.mem_range.mp hi
        omega
      have hchar := decodeRow_eq_some_iff x pa.length i
        (fun j hj => h01e i hiB j hj) (hrow i hiB)
      simp only [decide_eq_true_eq]
      constructor
      · intro hmap
        obtain ⟨j, hdec, hfj⟩ := Option.map_eq_some'.mp hmap
        obtain ⟨hjlt, hx1⟩ := (hchar j).mp hdec
        have hjj : j = j₀ := huniq j hjlt hfj
        rwa [hjj] at hx1
      · intro hx1
        have hdec : decodeRow x pa.length i = some j₀ :=
          (hchar j₀).mpr ⟨hj₀lt', hx1⟩
        rw [Option.map_eq_some']
        exact ⟨j₀, hdec, hj₀get⟩
    rw [hcongr]
    exact countP_range_eq_one_of_sum_one (pb.length + pa.length)
      (fun i => x.getD (i * pa.length + j₀) 0)
      (fun i hi => h01e i (by omega) j₀ hj₀lt')
      (by have := hcol j₀ hj₀lt'; rwa [hlenAug] at this)

/-- A `getD` at an in-bounds position is a member of the list. -/
theorem getD_mem_of_lt {α : Type} (l : List α) (i : ℕ) (d : α)
    (h : i < l.length) : l.getD i d ∈ l := by
  rw [List.getD_eq_getElem l d h]
  exact List.getElem_mem h

/-- Every key the solver emits comes from the corresponding input
partition: matched firsts and removed keys are before-keys, matched
seconds and new keys are after-keys. -/
theorem matchClusters_keys_mem (solver : LinprogOracle) (pb pa : Partition)
    (maxiter : ℕ)
    (hna : (keysOf pa).Nodup)
    (hfresh : ∀ k ∈ keysOf pa, vkey k ∉ keysOf pb) :
    (∀ pr ∈ (matchClusters solver pb pa maxiter).1.pairs,
      pr.1 ∈ keysOf pb ∧ pr.2 ∈ keysOf pa) ∧
    (∀ k ∈ (matchClusters solver pb pa maxiter).1.removed, k ∈ keysOf pb) ∧
    (∀ k ∈ (matchClusters solver pb pa maxiter).1.newKeys, k ∈ keysOf pa) := by
  have haug : augmentVirtual pb pa = pb ++ pa.map fun kv => (vkey kv.1, ∅) :=
    augmentVirtual_eq_append pb pa hfresh hna
  set pbAug := augmentVirtual pb pa with hpbAugDef
  set x := (solver (buildLinprogInput pbAug pa maxiter)).x with hxDef
  have hlenAug : pbAug.length = pb.length + pa.length := by rw [haug]; simp
  have hlenFirst : pbAug.length - pa.length = pb.length := by omega
  have hres : (matchClusters solver pb pa maxiter).1 =
      decodeSolution (keysOf pbAug) (keysOf pa) (pbAug.length - pa.length) x := rfl
  have hkeysAug : keysOf pbAug = keysOf pb ++ pa.map fun kv => vkey kv.1 := by
    rw [haug, keysOf_append]
    simp [keysOf]
  have hbmem : ∀ i < pb.length, (keysOf pbAug).getD i "" ∈ keysOf pb := by
    intro i hi
    have hilt : i < (keysOf pb).length := by rw [keysOf_length]; exact hi
    rw [hkeysAug, List.getD_append _ _ _ _ hilt]
    exact getD_mem_of_lt _ _ _ hilt
  refine ⟨?_, ?_, ?_⟩
  · intro pr hpr
    rw [hres, hlenFirst, decodeSolution_pairs] at hpr
    obtain ⟨i, hi, hsome⟩ := List.mem_filterMap.mp hpr
    by_cases hil : i < pb.length
    · rw [if_pos hil] at hsome
      obtain ⟨j, hdec, hpr_eq⟩ := Option.map_eq_some'.mp hsome
      have hdec' : (List.range (keysOf pa).length).find?
          (fun j => x.getD (i * (keysOf pa).length + j) 0 == 1) = some j := hdec
      have hjlt : j < (keysOf pa).length :=
        List.mem_range.mp (List.mem_of_find?_eq_some hdec')
      subst hpr_eq
      exact ⟨hbmem i hil, getD_mem_of_lt _ _ _ hjlt⟩
    · rw [if_neg hil] at hsome
      cases hsome
  · intro k hk
    rw [hres, hlenFirst, decodeSolution_removed] at hk
    obtain ⟨i, hi, hsome⟩ := List.mem_filterMap.mp hk
    by_cases hil : i < pb.length
    · rw [if_pos hil] at hsome
      rcases hdec : decodeRow x (keysOf pa).length i with _ | j
      · rw [hdec] at hsome
        simp only [Option.some.injEq] at hsome
        subst hsome
        exact hbmem i hil
      · rw [hdec] at hsome
        cases hsome
    · rw [if_neg hil] at hsome
      cases hsome
  · intro k hk
    rw [hres, hlenFirst, decodeSolution_newKeys] at hk
    obtain ⟨i, hi, hsome⟩ := List.mem_filterMap.mp hk
    by_cases hil : i < pb.length
    · rw [if_pos hil] at hsome
      cases hsome
    · rw [if_neg hil] at hsome
      obtain ⟨j, hdec, hk_eq⟩ := Option.map_eq_some'.mp hsome
      have hdec' : (List.range (keysOf pa).length).find?
          (fun j => x.getD (i * (keysOf pa).length + j) 0 == 1) = some j := hdec
      have hjlt : j < (keysOf pa).length :=
        List.mem_range.mp (List.mem_of_find?_eq_some hdec')
      subst hk_eq
      exact getD_mem_of_lt _ _ _ hjlt

/-- A key that is not a before-key is never counted among the matched
firsts or the removed keys of one solver call. -/
theorem matchClusters_count_zero_before (solver : LinprogOracle)
    (pb pa : Partition) (maxiter : ℕ)
    (hna : (keysOf pa).Nodup)
    (hfresh : ∀ k ∈ keysOf pa, vkey k ∉ keysOf pb)
    (k : String) (hk : k ∉ keysOf pb) :
    ((matchClusters solver pb pa maxiter).1.pairs.map Prod.fst).count k +
      ((matchClusters solver pb pa maxiter).1.removed).count k = 0 := by
  obtain ⟨hpairs, hrem, -⟩ := matchClusters_keys_mem solver pb pa maxiter hna hfresh
  have h1 : ((matchClusters solver pb pa maxiter).1.pairs.map Prod.fst).count k = 0 := by
    rw [List.count_eq_zero]
    intro hmem
    obtain ⟨pr, hpr, hprk⟩ := List.mem_map.mp hmem
    exact hk (hprk ▸ (hpairs pr hpr).1)
  have h2 : ((matchClusters solver pb pa maxiter).1.removed).count k = 0 := by
    rw [List.count_eq_zero]
    intro hmem
    exact hk (hrem k hmem)
  omega

/-- A key that is not an after-key is never counted among the matched
seconds or the new keys of one solver call. -/
theorem matchClusters_count_zero_after (solver : LinprogOracle)
    (pb pa : Partition) (maxiter : ℕ)
    (hna : (keysOf pa).Nodup)
    (hfresh : ∀ k ∈ keysOf pa, vkey k ∉ keysOf pb)
    (k : String) (hk : k ∉ keysOf pa) :
    ((matchClusters solver pb pa maxiter).1.pairs.map Prod.snd).count k +
      ((matchClusters solver pb pa maxiter).1.newKeys).count k = 0 := by
  obtain ⟨hpairs, -, hnew⟩ := matchClusters_keys_mem solver pb pa maxiter hna hfresh
  have h1 : ((matchClusters solver pb pa maxiter).1.pairs.map Prod.snd).count k = 0 := by
    rw [List.count_eq_zero]
    intro hmem
    obtain ⟨pr, hpr, hprk⟩ := List.mem_map.mp hmem
    exact hk (hprk ▸ (hpairs pr hpr).2)
  have h2 : ((matchClusters solver pb pa maxiter).1.newKeys).count k = 0 := by
    rw [List.count_eq_zero]
    intro hmem
    exact hk (hnew k hmem)
  omega

/-! ## Claims C5 and C7: the divider (modelled from the spec) -/

theorem normalizePartition_keys (p : RawPartition) (p' : Partition)
    (h : normalizePartition p = .ok p') : keysOf p' = p.map Prod.fst := by
  induction p generalizing p' with
  | nil =>
      rw [normalizePartition] at h
      cases h
      rfl
  | cons kv rest ih =>
      rw [normalizePartition] at h
      cases hv : normalizeValue kv.2 with
      | error e => rw [hv] at h; cases h
      | ok v =>
          rw [hv] at h
          cases hr : normalizePartition rest with
          | error e => rw [hr] at h; cases h
          | ok rest' =>
              rw [hr] at h
              cases h
              have hkeys := ih rest' hr
              simp only [keysOf, List.map_cons] at hkeys ⊢
              rw [hkeys]

/-- Normalization fails (with the constant type error) as soon as any
cluster value is a scalar. -/
theorem normalizePartition_error_of_scalar (p : RawPartition) (k : String)
    (n : ℤ) (hmem : (k, RawValue.scalar n) ∈ p) :
    normalizePartition p = .error "TypeError" := by
  induction p with
  | nil => cases hmem
  | cons kv rest ih =>
      rcases List.mem_cons.mp hmem with rfl | hmem'
      · rw [normalizePartition]
        rfl
      · rw [normalizePartition]
        cases hv : normalizeValue kv.2 with
        | error e =>
            cases kv with
            | mk k' v' =>
                cases v' with
                | items l => rw [normalizeValue] at hv; cases hv
                | scalar m => rw [normalizeValue] at hv; cases hv; rfl
        | ok v => rw [ih hmem']

/-- C7: an input holding a scalar cluster value (no `len()`/iteration
support) makes the divider fail with a type error instead of producing
subproblems. -/
theorem claim_C7_type_error (pb pa : RawPartition) (k : String) (n : ℤ)
    (hmem : (k, RawValue.scalar n) ∈ pb) :
    divideIntoSubproblems pb pa = .error "TypeError" := by
  rw [divideIntoSubproblems, normalizePartition_error_of_scalar pb k n hmem]

/-- Witness for C7 at the `test_type_error` instance
(`partition_before = {1: 42}`, `partition_after = {}`). -/
theorem claim_C7_type_error_witness :
    (("1", RawValue.scalar 42) ∈ ([("1", RawValue.scalar 42)] : RawPartition)) ∧
    divideIntoSubproblems [("1", RawValue.scalar 42)] [] = .error "TypeError" :=
  ⟨by decide, claim_C7_type_error [("1", RawValue.scalar 42)] [] "1" 42 (by decide)⟩

/-! ## Claim C5: the divider yields a partition of keys and items -/

/-- All items of a partition (union of its cluster sets). -/
def allItems (p : Partition) : ItemSet :=
  p.foldr (fun kv acc => kv.2 ∪ acc) ∅

/-- All items appearing on either side of any subproblem. -/
def subsItems (subs : List (Partition × Partition)) : ItemSet :=
  subs.foldr (fun s acc => allItems s.1 ∪ allItems s.2 ∪ acc) ∅

theorem mem_allItems (p : Partition) (x : ℕ) :
    x ∈ allItems p ↔ ∃ kv ∈ p, x ∈ kv.2 := by
  induction p with
  | nil => simp [allItems]
  | cons kv rest ih =>
      rw [show allItems (kv :: rest) = kv.2 ∪ allItems rest from rfl]
      simp [Finset.mem_union, ih]

theorem mem_subsItems (subs : List (Partition × Partition)) (x : ℕ) :
    x ∈ subsItems subs ↔ ∃ s ∈ subs, x ∈ allItems s.1 ∨ x ∈ allItems s.2 := by
  induction subs with
  | nil => simp [subsItems]
  | cons s rest ih =>
      rw [show subsItems (s :: rest) =
        allItems s.1 ∪ allItems s.2 ∪ subsItems rest from rfl]
      simp [Finset.mem_union, ih, or_assoc]

/-- Merging components preserves the collected before-keys (up to order),
adding the new key. -/
theorem addBeforeKey_bks_perm (comps : List Component) (k : String)
    (ns : List String) :
    (((addBeforeKey comps k ns).map Component.bks).flatten).Perm
      ((comps.map Component.bks).flatten ++ [k]) := by
  rw [addBeforeKey]
  simp only [List.map_append, List.map_cons, List.map_nil,
    List.flatten_append, List.flatten_cons, List.flatten_nil, List.append_nil]
  have hp : ((comps.filter fun c => c.aks.any (· ∈ ns)) ++
      (comps.filter fun c => !c.aks.any (· ∈ ns))).Perm comps :=
    List.filter_append_perm _ comps
  have hflat : ((((comps.filter fun c => c.aks.any (· ∈ ns)).map
        Component.bks).flatten) ++
      (((comps.filter fun c => !c.aks.any (· ∈ ns)).map
        Component.bks).flatten)).Perm ((comps.map Component.bks).flatten) := by
    have h2 := (hp.map Component.bks).flatten
    simpa using h2
  refine List.Perm.trans ?_ (hflat.append_right [k])
  rw [← List.append_assoc]
  exact List.perm_append_comm.append_right [k]

/-- The before-keys collected across all components are a permutation of
the processed keys. -/
theorem fold_comps_bks (entries pa' : Partition) (comps₀ : List Component) :
    (((entries.foldl
        (fun comps kv => addBeforeKey comps kv.1 (neighborKeys kv.2 pa'))
        comps₀).map Component.bks).flatten).Perm
      ((comps₀.map Component.bks).flatten ++ keysOf entries) := by
  induction entries generalizing comps₀ with
  | nil => simp [keysOf]
  | cons kv rest ih =>
      rw [List.foldl_cons]
      refine (ih (addBeforeKey comps₀ kv.1 (neighborKeys kv.2 pa'))).trans ?_
      refine ((addBeforeKey_bks_perm comps₀ kv.1
        (neighborKeys kv.2 pa')).append_right (keysOf rest)).trans ?_
      simp [keysOf]


/-- Adding a before-cluster preserves the invariant that every after-key
belongs to at most one component. -/
theorem addBeforeKey_countP_aks_le (comps : List Component) (k : String)
    (ns : List String)
    (hinv : ∀ a, comps.countP (fun c => decide (a ∈ c.aks)) ≤ 1) (a : String) :
    (addBeforeKey comps k ns).countP (fun c => decide (a ∈ c.aks)) ≤ 1 := by
  rw [addBeforeKey]
  rw [List.countP_append]
  by_cases hmem :
    a ∈ ((comps.filter fun c => c.aks.any (· ∈ ns)).map Component.aks).flatten ++ ns
  · -- the merged component holds `a`: no untouched component may
    have hrest : (comps.filter fun c => !c.aks.any (· ∈ ns)).countP
        (fun c => decide (a ∈ c.aks)) = 0 := by
      refine List.countP_eq_zero.mpr fun c hc => ?_
      simp only [decide_eq_true_eq]
      intro hak
      have hcf := List.mem_filter.mp hc
      rcases List.mem_append.mp hmem with hm | hm
      · -- `a` is in a touched component: together with `c` that makes two
        obtain ⟨aks₀, haks₀, ha₀⟩ := List.mem_flatten.mp hm
        obtain ⟨c₀, hc₀, rfl⟩ := List.mem_map.mp haks₀
        have hsplit := (List.filter_append_perm
          (fun c => c.aks.any (· ∈ ns)) comps).countP_eq
          (fun c => decide (a ∈ c.aks))
        have h1 : 0 < (comps.filter fun c => c.aks.any (· ∈ ns)).countP
            (fun c => decide (a ∈ c.aks)) :=
          List.countP_pos.mpr ⟨c₀, hc₀, by simpa using ha₀⟩
        have h2 : 0 < (comps.filter fun c => !c.aks.any (· ∈ ns)).countP
            (fun c => decide (a ∈ c.aks)) :=
          List.countP_pos.mpr ⟨c, hc, by simpa using hak⟩
        have hbound := hinv a
        rw [← hsplit, List.countP_append] at hbound
        omega
      · -- `a` is a fresh neighbor: `c` would have been touched
        have htrue : (c.aks.any (· ∈ ns)) = true := by
          simp only [List.any_eq_true, decide_eq_true_eq]
          exact ⟨a, hak, hm⟩
        simp [htrue] at hcf
    rw [hrest]
    have hsing : ([(⟨((comps.filter fun c => c.aks.any (· ∈ ns)).map
          Component.bks).flatten ++ [k],
        ((comps.filter fun c => c.aks.any (· ∈ ns)).map
          Component.aks).flatten ++ ns⟩ : Component)]).countP
        (fun c => decide (a ∈ c.aks)) ≤ 1 := by
      simp only [List.countP_cons, List.countP_nil]
      split <;> omega
    omega
  · -- the merged component does not hold `a`
    have hmerged : ([(⟨((comps.filter fun c => c.aks.any (· ∈ ns)).map
          Component.bks).flatten ++ [k],
        ((comps.filter fun c => c.aks.any (· ∈ ns)).map
          Component.aks).flatten ++ ns⟩ : Component)]).countP
        (fun c => decide (a ∈ c.aks)) = 0 := by
      refine List.countP_eq_zero.mpr fun c hc => ?_
      simp only [List.mem_singleton] at hc
      subst hc
      simp only [decide_eq_true_eq]
      intro hak
      exact hmem (by simpa using hak)
    rw [hmerged]
    have hle : (comps.filter fun c => !c.aks.any (· ∈ ns)).countP
        (fun c => decide (a ∈ c.aks)) ≤
        comps.countP (fun c => decide (a ∈ c.aks)) :=
      (List.filter_sublist comps).countP_le _
    have hbound := hinv a
    omega

/-- Every after-key belongs to at most one accumulated component. -/
theorem fold_comps_aks_le (entries pa' : Partition) (comps₀ : List Component)
    (hinv : ∀ a, comps₀.countP (fun c => decide (a ∈ c.aks)) ≤ 1) (a : String) :
    ((entries.foldl
        (fun comps kv => addBeforeKey comps kv.1 (neighborKeys kv.2 pa'))
        comps₀).countP (fun c => decide (a ∈ c.aks))) ≤ 1 := by
  induction entries generalizing comps₀ with
  | nil => exact hinv a
  | cons kv rest ih =>
      rw [List.foldl_cons]
      exact ih _ fun a' => addBeforeKey_countP_aks_le comps₀ kv.1 _ hinv a' 

/-- If the keys collected across a family of lists hold `k` exactly once,
then exactly one member of the family contains `k`. -/
theorem countP_mem_eq_one_of_flatten_count (ls : List (List String))
    (k : String) (h : ls.flatten.count k = 1) :
    ls.countP (fun l => decide (k ∈ l)) = 1 := by
  induction ls with
  | nil => simp at h
  | cons l rest ih =>
      rw [List.flatten_cons, List.count_append] at h
      rw [List.countP_cons]
      rcases Nat.lt_or_ge 0 (l.count k) with hpos | hzero
      · have hl : k ∈ l := List.count_pos_iff_mem.mp hpos
        have hone : l.count k = 1 := by omega
        have hrest : rest.flatten.count k = 0 := by omega
        have hnone : rest.countP (fun l => decide (k ∈ l)) = 0 := by
          refine List.countP_eq_zero.mpr fun l' hl' => ?_
          simp only [decide_eq_true_eq]
          intro hkl'
          have : k ∈ rest.flatten := List.mem_flatten.mpr ⟨l', hl', hkl'⟩
          rw [← List.count_pos_iff_mem] at this
          omega
        rw [hnone]
        simp [hl]
      · have hl : k ∉ l := by
          rw [← List.count_eq_zero]
          omega
        have hrest : rest.flatten.count k = 1 := by
          have : l.count k = 0 := by omega
          omega
        rw [ih hrest]
        simp [hl]


/-- The divider yields subproblems in which every before-key and every
after-key appears in exactly one subproblem (on its own side), and the
union over all subproblems of the before- and after-side item sets equals
the union of all items of the two (normalized) inputs. -/
theorem divider_exactly_once_props (pb pa : RawPartition)
    (pb' pa' : Partition) (subs : List (Partition × Partition))
    (hnb : (pb.map Prod.fst).Nodup) (hna : (pa.map Prod.fst).Nodup)
    (hpb : normalizePartition pb = .ok pb')
    (hpa : normalizePartition pa = .ok pa')
    (hdiv : divideIntoSubproblems pb pa = .ok subs) :
    (∀ k ∈ pb.map Prod.fst,
      subs.countP (fun s => decide (k ∈ keysOf s.1)) = 1) ∧
    (∀ k ∈ pa.map Prod.fst,
      subs.countP (fun s => decide (k ∈ keysOf s.2)) = 1) ∧
    subsItems subs = allItems pb' ∪ allItems pa' := by
  have hkb : keysOf pb' = pb.map Prod.fst := normalizePartition_keys pb pb' hpb
  have hka : keysOf pa' = pa.map Prod.fst := normalizePartition_keys pa pa' hpa
  have hnb' : (keysOf pb').Nodup := hkb ▸ hnb
  have hna' : (keysOf pa').Nodup := hka ▸ hna
  rw [divideIntoSubproblems, hpb, hpa] at hdiv
  simp only [Except.ok.injEq] at hdiv
  subst hdiv
  rw [← hkb, ← hka]
  set comps := bipartiteComponents pb' pa' with hcompsDef
  -- before-keys land in exactly one component
  have hbks_once : ∀ k ∈ keysOf pb',
      comps.countP (fun c => decide (k ∈ c.bks)) = 1 := by
    intro k hk
    have hperm : ((comps.map Component.bks).flatten).Perm (keysOf pb') := by
      have := fold_comps_bks pb' pa' []
      simpa [bipartiteComponents] using this
    have hcount : (comps.map Component.bks).flatten.count k = 1 := by
      rw [hperm.count_eq]
      exact List.count_eq_one_of_mem hnb' hk
    have := countP_mem_eq_one_of_flatten_count (comps.map Component.bks) k hcount
    rwa [List.countP_map] at this
  -- after-keys land in at most one component
  have haks_le : ∀ a, comps.countP (fun c => decide (a ∈ c.aks)) ≤ 1 := by
    intro a
    have := fold_comps_aks_le pb' pa' [] (by simp) a
    simpa [bipartiteComponents] using this
  refine ⟨?_, ?_, ?_⟩
  · -- every before-key in exactly one subproblem
    intro k hk
    rw [List.countP_append]
    have hsingles : (((pa'.filter fun kv =>
        kv.1 ∉ (comps.map Component.aks).flatten).map
          fun kv => (([] : Partition), [kv])).countP
        (fun s => decide (k ∈ keysOf s.1))) = 0 := by
      rw [List.countP_map]
      refine List.countP_eq_zero.mpr fun kv _ => ?_
      simp [keysOf]
    rw [hsingles, Nat.add_zero, List.countP_map]
    have hcongr : (comps.countP ((fun s => decide (k ∈ keysOf s.1)) ∘
        fun c => (pb'.filter fun kv => kv.1 ∈ c.bks,
                  pa'.filter fun kv => kv.1 ∈ c.aks))) =
        comps.countP (fun c => decide (k ∈ c.bks)) := by
      refine List.countP_congr fun c _ => ?_
      simp only [Function.comp_apply, decide_eq_true_eq]
      constructor
      · intro hmem
        obtain ⟨kv, hkv, rfl⟩ := List.mem_map.mp hmem
        exact (List.mem_filter.mp hkv).2 |> fun h => by simpa using h
      · intro hmem
        obtain ⟨kv, hkv, rfl⟩ := List.mem_map.mp hk
        refine List.mem_map.mpr ⟨kv, List.mem_filter.mpr ⟨hkv, by simpa using hmem⟩, rfl⟩
    rw [hcongr]
    exact hbks_once k hk
  · -- every after-key in exactly one subproblem
    intro k hk
    rw [List.countP_append]
    have hfrom : (comps.map fun c =>
        (pb'.filter fun kv => kv.1 ∈ c.bks,
         pa'.filter fun kv => kv.1 ∈ c.aks)).countP
        (fun s => decide (k ∈ keysOf s.2)) =
        comps.countP (fun c => decide (k ∈ c.aks)) := by
      rw [List.countP_map]
      refine List.countP_congr fun c _ => ?_
      simp only [Function.comp_apply, decide_eq_true_eq]
      constructor
      · intro hmem
        obtain ⟨kv, hkv, rfl⟩ := List.mem_map.mp hmem
        exact (List.mem_filter.mp hkv).2 |> fun h => by simpa using h
      · intro hmem
        obtain ⟨kv, hkv, rfl⟩ := List.mem_map.mp hk
        refine List.mem_map.mpr ⟨kv, List.mem_filter.mpr ⟨hkv, by simpa using hmem⟩, rfl⟩
    have hsingleP : (((pa'.filter fun kv =>
        kv.1 ∉ (comps.map Component.aks).flatten).map
          fun kv => (([] : Partition), [kv])).countP
        (fun s => decide (k ∈ keysOf s.2))) =
        ((pa'.filter fun kv => kv.1 ∉ (comps.map Component.aks).flatten).countP
          (fun kv => decide (kv.1 = k))) := by
      rw [List.countP_map]
      refine List.countP_congr fun kv _ => ?_
      simp [keysOf, eq_comm]
    rw [hfrom, hsingleP]
    by_cases hkc : k ∈ (comps.map Component.aks).flatten
    · -- claimed: exactly one component, no singleton
      obtain ⟨aksl, haksl, hkin⟩ := List.mem_flatten.mp hkc
      obtain ⟨c₀, hc₀, rfl⟩ := List.mem_map.mp haksl
      have hpos : 0 < comps.countP (fun c => decide (k ∈ c.aks)) :=
        List.countP_pos.mpr ⟨c₀, hc₀, by simpa using hkin⟩
      have hone : comps.countP (fun c => decide (k ∈ c.aks)) = 1 := by
        have := haks_le k
        omega
      have hzero : ((pa'.filter fun kv =>
          kv.1 ∉ (comps.map Component.aks).flatten).countP
          (fun kv => decide (kv.1 = k))) = 0 := by
        refine List.countP_eq_zero.mpr fun kv hkv => ?_
        simp only [decide_eq_true_eq]
        intro hkvk
        have := (List.mem_filter.mp hkv).2
        rw [hkvk] at this
        simp only [decide_eq_true_eq] at this
        exact this hkc
      omega
    · -- unclaimed: no component, exactly one singleton
      have hzero : comps.countP (fun c => decide (k ∈ c.aks)) = 0 := by
        refine List.countP_eq_zero.mpr fun c hc => ?_
        simp only [decide_eq_true_eq]
        intro hkin
        exact hkc (List.mem_flatten.mpr ⟨c.aks, List.mem_map_of_mem Component.aks hc, hkin⟩)
      have hone : ((pa'.filter fun kv =>
          kv.1 ∉ (comps.map Component.aks).flatten).countP
          (fun kv => decide (kv.1 = k))) = 1 := by
        rw [List.countP_filter]
        have hcongr2 : pa'.countP (fun kv => decide (kv.1 = k) &&
            decide (kv.1 ∉ (comps.map Component.aks).flatten)) =
            pa'.countP (fun kv => decide (kv.1 = k)) := by
          refine List.countP_congr fun kv _ => ?_
          simp only [Bool.and_eq_true, decide_eq_true_eq]
          constructor
          · exact fun h => h.1
          · intro h
            exact ⟨h, h ▸ hkc⟩
        rw [hcongr2]
        have : pa'.countP (fun kv => decide (kv.1 = k)) = (keysOf pa').count k := by
          rw [keysOf, List.count_eq_countP, List.countP_map]
          refine (List.countP_congr fun kv _ => ?_).symm
          simp
        rw [this]
        exact List.count_eq_one_of_mem hna' hk
      omega
  · -- items are preserved
    ext x
    rw [mem_subsItems, Finset.mem_union]
    constructor
    · rintro ⟨s, hs, hx⟩
      rcases List.mem_append.mp hs with hsc | hss
      · obtain ⟨c, _, rfl⟩ := List.mem_map.mp hsc
        rcases hx with hx | hx
        · left
          obtain ⟨kv, hkv, hxkv⟩ := (mem_allItems _ x).mp hx
          exact (mem_allItems pb' x).mpr ⟨kv, (List.mem_filter.mp hkv).1, hxkv⟩
        · right
          obtain ⟨kv, hkv, hxkv⟩ := (mem_allItems _ x).mp hx
          exact (mem_allItems pa' x).mpr ⟨kv, (List.mem_filter.mp hkv).1, hxkv⟩
      · obtain ⟨kv, hkv, rfl⟩ := List.mem_map.mp hss
        rcases hx with hx | hx
        · rw [mem_allItems] at hx
          obtain ⟨kv', hkv', _⟩ := hx
          cases hkv'
        · right
          obtain ⟨kv', hkv', hxkv⟩ := (mem_allItems _ x).mp hx
          simp only [List.mem_singleton] at hkv'
          subst hkv'
          exact (mem_allItems pa' x).mpr ⟨kv', (List.mem_filter.mp hkv).1, hxkv⟩
    · intro hx
      rcases hx with hx | hx
      · obtain ⟨kv, hkv, hxkv⟩ := (mem_allItems pb' x).mp hx
        have hkmem : kv.1 ∈ keysOf pb' := List.mem_map_of_mem Prod.fst hkv
        have h1 := hbks_once kv.1 hkmem
        have hpos : 0 < comps.countP (fun c => decide (kv.1 ∈ c.bks)) := by omega
        obtain ⟨c, hc, hcP⟩ := List.countP_pos.mp hpos
        simp only [decide_eq_true_eq] at hcP
        refine ⟨(pb'.filter fun kv' => kv'.1 ∈ c.bks,
                 pa'.filter fun kv' => kv'.1 ∈ c.aks),
          List.mem_append.mpr (Or.inl (List.mem_map_of_mem _ hc)), Or.inl ?_⟩
        exact (mem_allItems _ x).mpr
          ⟨kv, List.mem_filter.mpr ⟨hkv, by simpa using hcP⟩, hxkv⟩
      · obtain ⟨kv, hkv, hxkv⟩ := (mem_allItems pa' x).mp hx
        by_cases hkc : kv.1 ∈ (comps.map Component.aks).flatten
        · obtain ⟨aksl, haksl, hkin⟩ := List.mem_flatten.mp hkc
          obtain ⟨c, hc, rfl⟩ := List.mem_map.mp haksl
          refine ⟨(pb'.filter fun kv' => kv'.1 ∈ c.bks,
                   pa'.filter fun kv' => kv'.1 ∈ c.aks),
            List.mem_append.mpr (Or.inl (List.mem_map_of_mem _ hc)), Or.inr ?_⟩
          exact (mem_allItems _ x).mpr
            ⟨kv, List.mem_filter.mpr ⟨hkv, by simpa using hkin⟩, hxkv⟩
        · refine ⟨(([] : Partition), [kv]),
            List.mem_append.mpr (Or.inr (List.mem_map_of_mem _
              (List.mem_filter.mpr ⟨hkv, by simpa using hkc⟩))), Or.inr ?_⟩
          exact (mem_allItems _ x).mpr ⟨kv, List.mem_singleton.mpr rfl, hxkv⟩

/-- C5: the divider yields subproblems in which every before-key and every
after-key appears in exactly one subproblem (on its own side), and the
union over all subproblems of the before- and after-side item sets equals
the union of all items of the two (normalized) inputs. -/
theorem claim_C5_divider_exactly_once (pb pa : RawPartition)
    (pb' pa' : Partition) (subs : List (Partition × Partition))
    (hnb : (pb.map Prod.fst).Nodup) (hna : (pa.map Prod.fst).Nodup)
    (hpb : normalizePartition pb = .ok pb')
    (hpa : normalizePartition pa = .ok pa')
    (hdiv : divideIntoSubproblems pb pa = .ok subs) :
    (∀ k ∈ pb.map Prod.fst,
      subs.countP (fun s => decide (k ∈ keysOf s.1)) = 1) ∧
    (∀ k ∈ pa.map Prod.fst,
      subs.countP (fun s => decide (k ∈ keysOf s.2)) = 1) ∧
    subsItems subs = allItems pb' ∪ allItems pa' :=
  divider_exactly_once_props pb pa pb' pa' subs hnb hna hpb hpa hdiv

/-- Witness for C5 at the `test_empty_value` instance. -/
theorem claim_C5_divider_exactly_once_witness :
    normalizePartition [("1", RawValue.items [0, 1, 2]), ("2", RawValue.items [])] =
      .ok [("1", {0, 1, 2}), ("2", ∅)] ∧
    divideIntoSubproblems
        [("1", RawValue.items [0, 1, 2]), ("2", RawValue.items [])]
        [("3", RawValue.items [0, 1]), ("4", RawValue.items [2, 3])] =
      .ok [([("1", {0, 1, 2})], [("3", {0, 1}), ("4", {2, 3})]),
           ([("2", ∅)], [])] ∧
    ([([("1", ({0, 1, 2} : ItemSet))], [("3", ({0, 1} : ItemSet)), ("4", {2, 3})]),
      ([("2", (∅ : ItemSet))], [])].countP
        (fun s => decide ("1" ∈ keysOf s.1))) = 1 ∧
    ([([("1", ({0, 1, 2} : ItemSet))], [("3", ({0, 1} : ItemSet)), ("4", {2, 3})]),
      ([("2", (∅ : ItemSet))], [])].countP
        (fun s => decide ("3" ∈ keysOf s.2))) = 1 ∧
    subsItems [([("1", ({0, 1, 2} : ItemSet))],
        [("3", ({0, 1} : ItemSet)), ("4", {2, 3})]), ([("2", ∅)], [])] =
      allItems [("1", {0, 1, 2}), ("2", ∅)] ∪
        allItems [("3", {0, 1}), ("4", {2, 3})] := by
  have h := claim_C5_divider_exactly_once
    [("1", RawValue.items [0, 1, 2]), ("2", RawValue.items [])]
    [("3", RawValue.items [0, 1]), ("4", RawValue.items [2, 3])]
    [("1", {0, 1, 2}), ("2", ∅)] [("3", {0, 1}), ("4", {2, 3})]
    [([("1", {0, 1, 2})], [("3", {0, 1}), ("4", {2, 3})]), ([("2", ∅)], [])]
    (by decide) (by decide) (by decide) (by decide) (by decide)
  exact ⟨by decide, by decide, h.1 "1" (by decide), h.2.1 "3" (by decide), h.2.2⟩

/-! ## Claim C1: completeness at the `do_matching` level -/

/-- Each subproblem draws its keys from the normalized inputs, sides
separately (as a sublist, so duplicate-freeness is inherited). -/
theorem divider_sub_keys (pb pa : RawPartition) (pb' pa' : Partition)
    (subs : List (Partition × Partition))
    (hpb : normalizePartition pb = .ok pb')
    (hpa : normalizePartition pa = .ok pa')
    (hdiv : divideIntoSubproblems pb pa = .ok subs) :
    ∀ sub ∈ subs, (keysOf sub.1).Sublist (keysOf pb') ∧
      (keysOf sub.2).Sublist (keysOf pa') := by
  rw [divideIntoSubproblems, hpb, hpa] at hdiv
  simp only [Except.ok.injEq] at hdiv
  subst hdiv
  intro sub hsub
  rcases List.mem_append.mp hsub with hsc | hss
  · obtain ⟨c, -, rfl⟩ := List.mem_map.mp hsc
    exact ⟨(List.filter_sublist _).map Prod.fst, (List.filter_sublist _).map Prod.fst⟩
  · obtain ⟨kv, hkv, rfl⟩ := List.mem_map.mp hss
    have hkvmem : kv ∈ pa' := (List.mem_filter.mp hkv).1
    exact ⟨List.nil_sublist _, (List.singleton_sublist.mpr hkvmem).map Prod.fst⟩

/-- Dropping the empty sublists does not change the flattening. -/
theorem flatten_filter_ne_nil {α : Type} [DecidableEq α] (ls : List (List α)) :
    (ls.filter (· ≠ [])).flatten = ls.flatten := by
  induction ls with
  | nil => rfl
  | cons l rest ih =>
      simp only [decide_not] at ih ⊢
      by_cases h : l = [] <;> simp [List.filter_cons, h, ih]

/-- Counting in a flattening is summing the per-list counts. -/
theorem count_flatten_eq_sum {α : Type} [DecidableEq α] (ls : List (List α))
    (k : α) :
    ls.flatten.count k = (ls.map fun l => l.count k).sum := by
  induction ls with
  | nil => rfl
  | cons l rest ih =>
      rw [List.flatten_cons, List.count_append, List.map_cons, List.sum_cons, ih]

theorem map_flatten_eq {α β : Type} (f : α → β) (ls : List (List α)) :
    ls.flatten.map f = (ls.map (List.map f)).flatten := by
  induction ls with
  | nil => rfl
  | cons l rest ih =>
      rw [List.flatten_cons, List.map_append, ih, List.map_cons, List.flatten_cons]

theorem sum_map_add {α : Type} (l : List α) (f g : α → ℕ) :
    (l.map fun a => f a + g a).sum = (l.map f).sum + (l.map g).sum := by
  induction l with
  | nil => rfl
  | cons a rest ih =>
      simp only [List.map_cons, List.sum_cons, ih]
      omega

/-- Summing a 0/1 indicator over a list counts the satisfying elements. -/
theorem sum_map_ite_eq_countP {α : Type} (l : List α) (p : α → Prop)
    [DecidablePred p] :
    (l.map fun a => if p a then 1 else 0).sum = l.countP fun a => decide (p a) := by
  induction l with
  | nil => rfl
  | cons a rest ih =>
      rw [List.map_cons, List.sum_cons, List.countP_cons, ih]
      by_cases h : p a <;> simp [h] <;> omega

/-- Counting a key across one accumulated `do_matching` bucket is summing
the per-subproblem counts. -/
theorem count_buckets_eq_sum {σ α : Type} [DecidableEq α]
    (subs : List σ) (f : σ → List α) (k : α) :
    ((subs.map f).filter (· ≠ [])).flatten.count k =
      (subs.map fun s => (f s).count k).sum := by
  rw [flatten_filter_ne_nil, count_flatten_eq_sum, List.map_map]
  rfl

/-- Counting a projected key across one accumulated `do_matching` bucket is
summing the per-subproblem projected counts. -/
theorem count_buckets_map_eq_sum {σ α β : Type} [DecidableEq α] [DecidableEq β]
    (subs : List σ) (f : σ → List α) (g : α → β) (k : β) :
    (((subs.map f).filter (· ≠ [])).flatten.map g).count k =
      (subs.map fun s => ((f s).map g).count k).sum := by
  rw [flatten_filter_ne_nil, map_flatten_eq, List.map_map, count_flatten_eq_sum,
    List.map_map]
  rfl

/-- C1 counterexample: at `partition_before = {"v1": {0}}`,
`partition_after = {"1": {0}}` the before-key `"v1"` collides with the
virtual name `"v" + "1"`; the in-place augmentation of `_match_clusters`
overwrites the real cluster (the augmented before-partition collapses to
`{"v1": set()}` and `len_first` becomes 0), so even though the LP solution
fed to the decode loop is feasible and 0/1 (it is the forced optimum
`[1]`), `do_matching` returns `([], [["1"]], [])` and `"v1"` occurs zero
times across the matched firsts and the removed bucket — not exactly
once. -/
theorem claim_C1_counterexample :
    "v1" ∈ [("v1", RawValue.items [0])].map Prod.fst ∧
    augmentVirtual [("v1", ({0} : ItemSet))] [("1", {0})] = [("v1", ∅)] ∧
    FeasibleFor
      (buildLinprogInput (augmentVirtual [("v1", ({0} : ItemSet))] [("1", {0})])
        [("1", {0})] 5000)
      ((docstringOracle (buildLinprogInput
        (augmentVirtual [("v1", ({0} : ItemSet))] [("1", {0})]) [("1", {0})] 5000)).x) ∧
    ZeroOneOn ((augmentVirtual [("v1", ({0} : ItemSet))] [("1", {0})]).length * 1)
      ((docstringOracle (buildLinprogInput
        (augmentVirtual [("v1", ({0} : ItemSet))] [("1", {0})]) [("1", {0})] 5000)).x) ∧
    doMatching docstringOracle [("v1", RawValue.items [0])] [("1", RawValue.items [0])] =
      .ok ⟨[], [["1"]], []⟩ ∧
    ((⟨[], [["1"]], []⟩ : DoMatchingResult).matched.flatten.map Prod.fst).count "v1" +
      (⟨[], [["1"]], []⟩ : DoMatchingResult).removed.flatten.count "v1" = 0 := by
  have haug : augmentVirtual [("v1", ({0} : ItemSet))] [("1", {0})] =
      [("v1", ∅)] := by decide
  have hx : (docstringOracle (buildLinprogInput
      (augmentVirtual [("v1", ({0} : ItemSet))] [("1", {0})]) [("1", {0})] 5000)).x =
      [1] := by decide
  refine ⟨by decide, haug, ?_, ?_, by decide, by decide⟩
  · rw [hx]
    refine ⟨?_, ?_, ?_⟩
    · intro i hi
      have hlen : (buildLinprogInput
          (augmentVirtual [("v1", ({0} : ItemSet))] [("1", {0})])
          [("1", {0})] 5000).A_ub.length = 1 := by
        simp [buildLinprogInput, A_ubMatrix, haug]
      replace hi : i < 1 := hlen ▸ hi
      interval_cases i
      simp [buildLinprogInput, haug, A_ubMatrix, List.range_succ, dot,
        Finset.sum_range_succ]
    · intro j hj
      have hlen : (buildLinprogInput
          (augmentVirtual [("v1", ({0} : ItemSet))] [("1", {0})])
          [("1", {0})] 5000).A_eq.length = 1 := by
        simp [buildLinprogInput, A_eqMatrix, haug]
      replace hj : j < 1 := hlen ▸ hj
      interval_cases j
      simp [buildLinprogInput, haug, A_eqMatrix, List.range_succ, dot,
        Finset.sum_range_succ]
    · intro v hv
      simp only [List.mem_cons, List.not_mem_nil, or_false] at hv
      rcases hv with rfl
      norm_num
  · rw [hx]
    have hlen : (augmentVirtual [("v1", ({0} : ItemSet))] [("1", {0})]).length * 1 =
        1 := by decide
    rw [hlen]
    intro e he
    interval_cases e
    norm_num

/-- C1 amended: restricted to input partitions with duplicate-free keys in
which no before-key equals a virtual name (`"v"` + an after-key), the
completeness holds at the `do_matching` level: whenever the LP oracle
returns a feasible 0/1 solution for every subproblem it is handed, every
before-key appears exactly once counted across the flattened matched
pairs' first components and the flattened removed bucket, and every
after-key exactly once across the flattened matched pairs' second
components and the flattened new bucket of the returned triple.  Without
the restriction the claim fails: a colliding before-key is overwritten in
place by the virtual augmentation and appears in no bucket. -/
theorem claim_C1_amended (solver : LinprogOracle) (pb pa : RawPartition)
    (pb' pa' : Partition) (subs : List (Partition × Partition))
    (res : DoMatchingResult)
    (hnb : (pb.map Prod.fst).Nodup) (hna : (pa.map Prod.fst).Nodup)
    (hpb : normalizePartition pb = .ok pb')
    (hpa : normalizePartition pa = .ok pa')
    (hfresh : ∀ k ∈ pa.map Prod.fst, vkey k ∉ pb.map Prod.fst)
    (hdiv : divideIntoSubproblems pb pa = .ok subs)
    (hOrc : ∀ sub ∈ subs,
      FeasibleFor (buildLinprogInput (augmentVirtual sub.1 sub.2) sub.2 5000)
        (solver (buildLinprogInput (augmentVirtual sub.1 sub.2) sub.2 5000)).x ∧
      ZeroOneOn ((augmentVirtual sub.1 sub.2).length * sub.2.length)
        (solver (buildLinprogInput (augmentVirtual sub.1 sub.2) sub.2 5000)).x)
    (hres : doMatching solver pb pa = .ok res) :
    (∀ k ∈ pb.map Prod.fst,
      (res.matched.flatten.map Prod.fst).count k +
        res.removed.flatten.count k = 1) ∧
    (∀ k ∈ pa.map Prod.fst,
      (res.matched.flatten.map Prod.snd).count k +
        res.newKeys.flatten.count k = 1) := by
  have hkb : keysOf pb' = pb.map Prod.fst := normalizePartition_keys pb pb' hpb
  have hka : keysOf pa' = pa.map Prod.fst := normalizePartition_keys pa pa' hpa
  have hnb' : (keysOf pb').Nodup := by rw [hkb]; exact hnb
  have hna' : (keysOf pa').Nodup := by rw [hka]; exact hna
  have hfresh' : ∀ k ∈ keysOf pa', vkey k ∉ keysOf pb' := by
    rw [hkb, hka]; exact hfresh
  have hsubkeys := divider_sub_keys pb pa pb' pa' subs hpb hpa hdiv
  have hsubenv : ∀ sub ∈ subs, (keysOf sub.1).Nodup ∧ (keysOf sub.2).Nodup ∧
      (∀ k ∈ keysOf sub.2, vkey k ∉ keysOf sub.1) := by
    intro sub hsub
    obtain ⟨hs1, hs2⟩ := hsubkeys sub hsub
    refine ⟨hnb'.sublist hs1, hna'.sublist hs2, fun k hk hv => ?_⟩
    exact hfresh' k (hs2.subset hk) (hs1.subset hv)
  have hdonce := divider_exactly_once_props pb pa pb' pa' subs hnb hna hpb hpa hdiv
  rw [doMatching, hdiv] at hres
  simp only [Except.ok.injEq] at hres
  rw [doMatching_foldl_closed] at hres
  subst hres
  constructor
  · intro k hk
    have hval : ((((subs.map fun sub => (solvedResult solver sub).pairs).filter
          (· ≠ [])).flatten.map Prod.fst).count k) +
        (((subs.map fun sub => (solvedResult solver sub).removed).filter
          (· ≠ [])).flatten.count k) =
        (subs.map fun sub =>
          ((solvedResult solver sub).pairs.map Prod.fst).count k +
            (solvedResult solver sub).removed.count k).sum := by
      rw [count_buckets_map_eq_sum, count_buckets_eq_sum, ← sum_map_add]
    have hmapeq : (subs.map fun sub =>
        ((solvedResult solver sub).pairs.map Prod.fst).count k +
          (solvedResult solver sub).removed.count k) =
        subs.map fun sub => if k ∈ keysOf sub.1 then 1 else 0 := by
      refine List.map_congr_left fun sub hsub => ?_
      obtain ⟨hn1, hn2, hfr⟩ := hsubenv sub hsub
      obtain ⟨hFs, h01s⟩ := hOrc sub hsub
      by_cases hmem : k ∈ keysOf sub.1
      · rw [if_pos hmem]
        exact (matchClusters_completeness solver sub.1 sub.2 5000 hn1 hn2 hfr
          hFs h01s).1 k hmem
      · rw [if_neg hmem]
        exact matchClusters_count_zero_before solver sub.1 sub.2 5000 hn2 hfr k hmem
    have hsum1 : (subs.map fun sub =>
        ((solvedResult solver sub).pairs.map Prod.fst).count k +
          (solvedResult solver sub).removed.count k).sum = 1 := by
      rw [hmapeq, sum_map_ite_eq_countP]
      exact hdonce.1 k hk
    exact hval.trans hsum1
  · intro k hk
    have hval : ((((subs.map fun sub => (solvedResult solver sub).pairs).filter
          (· ≠ [])).flatten.map Prod.snd).count k) +
        (((subs.map fun sub => (solvedResult solver sub).newKeys).filter
          (· ≠ [])).flatten.count k) =
        (subs.map fun sub =>
          ((solvedResult solver sub).pairs.map Prod.snd).count k +
            (solvedResult solver sub).newKeys.count k).sum := by
      rw [count_buckets_map_eq_sum, count_buckets_eq_sum, ← sum_map_add]
    have hmapeq : (subs.map fun sub =>
        ((solvedResult solver sub).pairs.map Prod.snd).count k +
          (solvedResult solver sub).newKeys.count k) =
        subs.map fun sub => if k ∈ keysOf sub.2 then 1 else 0 := by
      refine List.map_congr_left fun sub hsub => ?_
      obtain ⟨hn1, hn2, hfr⟩ := hsubenv sub hsub
      obtain ⟨hFs, h01s⟩ := hOrc sub hsub
      by_cases hmem : k ∈ keysOf sub.2
      · rw [if_pos hmem]
        exact (matchClusters_completeness solver sub.1 sub.2 5000 hn1 hn2 hfr
          hFs h01s).2 k hmem
      · rw [if_neg hmem]
        exact matchClusters_count_zero_after solver sub.1 sub.2 5000 hn2 hfr k hmem
    have hsum1 : (subs.map fun sub =>
        ((solvedResult solver sub).pairs.map Prod.snd).count k +
          (solvedResult solver sub).newKeys.count k).sum = 1 := by
      rw [hmapeq, sum_map_ite_eq_countP]
      exact hdonce.2.1 k hk
    exact hval.trans hsum1

/-- Witness for the amended C1 at the `test_the_same_clusters` instance
(one subproblem, one real cluster, one after-cluster, optimal solution
`[1, 0]`). -/
theorem claim_C1_amended_witness :
    FeasibleFor (buildLinprogInput (augmentVirtual [("1", {0})] [("2", {0})])
      [("2", {0})] 5000) [1, 0] ∧
    ZeroOneOn 2 [1, 0] ∧
    ((⟨[[("1", "2")]], [], []⟩ : DoMatchingResult).matched.flatten.map
        Prod.fst).count "1" +
      (⟨[[("1", "2")]], [], []⟩ : DoMatchingResult).removed.flatten.count "1" = 1 ∧
    ((⟨[[("1", "2")]], [], []⟩ : DoMatchingResult).matched.flatten.map
        Prod.snd).count "2" +
      (⟨[[("1", "2")]], [], []⟩ : DoMatchingResult).newKeys.flatten.count "2" = 1 := by
  have haug2 : augmentVirtual [("1", {0})] [("2", {0})] =
      [("1", {0}), ("v2", ∅)] := by decide
  have hF : FeasibleFor (buildLinprogInput
      (augmentVirtual [("1", {0})] [("2", {0})]) [("2", {0})] 5000) [1, 0] := by
    refine ⟨?_, ?_, ?_⟩
    · intro i hi
      have hlen : (buildLinprogInput (augmentVirtual [("1", {0})] [("2", {0})])
          [("2", {0})] 5000).A_ub.length = 2 := by
        simp [buildLinprogInput, A_ubMatrix, haug2]
      replace hi : i < 2 := hlen ▸ hi
      interval_cases i <;>
        simp [buildLinprogInput, haug2, A_ubMatrix, List.range_succ, dot,
          Finset.sum_range_succ]
    · intro j hj
      have hlen : (buildLinprogInput (augmentVirtual [("1", {0})] [("2", {0})])
          [("2", {0})] 5000).A_eq.length = 1 := by
        simp [buildLinprogInput, A_eqMatrix, haug2]
      replace hj : j < 1 := hlen ▸ hj
      interval_cases j
      simp [buildLinprogInput, haug2, A_eqMatrix, List.range_succ, dot,
        Finset.sum_range_succ]
    · intro v hv
      simp only [List.mem_cons, List.not_mem_nil, or_false] at hv
      rcases hv with rfl | rfl <;> norm_num
  have h01 : ZeroOneOn 2 [1, 0] := by
    intro e he
    interval_cases e <;> simp
  have hOrc : ∀ sub ∈ [([("1", ({0} : ItemSet))], [("2", ({0} : ItemSet))])],
      FeasibleFor (buildLinprogInput (augmentVirtual sub.1 sub.2) sub.2 5000)
        (singlePairOracle (buildLinprogInput (augmentVirtual sub.1 sub.2)
          sub.2 5000)).x ∧
      ZeroOneOn ((augmentVirtual sub.1 sub.2).length * sub.2.length)
        (singlePairOracle (buildLinprogInput (augmentVirtual sub.1 sub.2)
          sub.2 5000)).x := by
    intro sub hsub
    simp only [List.mem_singleton] at hsub
    subst hsub
    refine ⟨hF, ?_⟩
    have hlen2 : (augmentVirtual [("1", ({0} : ItemSet))]
        [("2", ({0} : ItemSet))]).length * [("2", ({0} : ItemSet))].length = 2 := by
      decide
    rw [hlen2]
    exact h01
  have happ := claim_C1_amended singlePairOracle
    [("1", RawValue.items [0])] [("2", RawValue.items [0])]
    [("1", {0})] [("2", {0})]
    [([("1", {0})], [("2", {0})])]
    ⟨[[("1", "2")]], [], []⟩
    (by decide) (by decide) (by decide) (by decide) (by decide) (by decide)
    hOrc (by decide)
  exact ⟨hF, h01, happ.1 "1" (by decide), happ.2 "2" (by decide)⟩

/-! ## Claim C8: identity stability -/

theorem symmDiffSet_self (a : ItemSet) : symmDiffSet a a = ∅ := by
  simp [symmDiffSet]

theorem symmDiffSet_eq_empty_iff (b a : ItemSet) :
    symmDiffSet b a = ∅ ↔ b = a := by
  constructor
  · intro h
    ext y
    have hy := Finset.ext_iff.mp h y
    simp only [symmDiffSet, Finset.mem_union, Finset.mem_sdiff,
      Finset.not_mem_empty, iff_false, not_or, not_and, not_not] at hy
    constructor
    · intro hb
      by_contra ha
      exact ha (hy.1 hb)
    · intro ha
      by_contra hb
      exact hb (hy.2 ha)
  · rintro rfl
    exact symmDiffSet_self _

/-- The cost of a cluster against itself: full overlap, zero symmetric
difference. -/
theorem costEntry_self (nA : ℕ) (a : ItemSet) :
    costEntry nA a a = -(a.card : ℚ) - 1 / (nA : ℚ) := by
  rw [costEntry, symmDiffSet_self, Finset.inter_self]
  simp

/-- Against a fixed after-cluster, the self pairing is the cheapest. -/
theorem costEntry_self_le (nA : ℕ) (hA : 0 < nA) (b a : ItemSet) :
    costEntry nA a a ≤ costEntry nA b a := by
  rw [costEntry_self, costEntry]
  have hnq : (0 : ℚ) < (nA : ℚ) := by exact_mod_cast hA
  have hinter : ((b ∩ a).card : ℚ) ≤ (a.card : ℚ) := by
    exact_mod_cast Finset.card_le_card (Finset.inter_subset_right)
  have hd : (0 : ℚ) ≤ ((symmDiffSet b a).card : ℚ) := by positivity
  have htie : 1 / ((nA : ℚ) * (1 + ((symmDiffSet b a).card : ℚ))) ≤ 1 / (nA : ℚ) := by
    apply one_div_le_one_div_of_le hnq
    nlinarith
  linarith

/-- The self pairing is strictly cheaper unless the clusters coincide. -/
theorem costEntry_eq_self_imp (nA : ℕ) (hA : 0 < nA) (b a : ItemSet)
    (h : costEntry nA b a = costEntry nA a a) : b = a := by
  rw [costEntry_self, costEntry] at h
  have hnq : (0 : ℚ) < (nA : ℚ) := by exact_mod_cast hA
  have hinter : ((b ∩ a).card : ℚ) ≤ (a.card : ℚ) := by
    exact_mod_cast Finset.card_le_card (Finset.inter_subset_right)
  have hd : (0 : ℚ) ≤ ((symmDiffSet b a).card : ℚ) := by positivity
  have h1 : (0 : ℚ) < (nA : ℚ) * (1 + ((symmDiffSet b a).card : ℚ)) := by
    nlinarith
  have htie : 1 / ((nA : ℚ) * (1 + ((symmDiffSet b a).card : ℚ))) ≤ 1 / (nA : ℚ) := by
    apply one_div_le_one_div_of_le hnq
    nlinarith
  have htie_eq : 1 / ((nA : ℚ) * (1 + ((symmDiffSet b a).card : ℚ))) =
      1 / (nA : ℚ) := by linarith
  have hcross := (div_eq_div_iff (ne_of_gt h1) (ne_of_gt hnq)).mp htie_eq
  have hdz : (nA : ℚ) * ((symmDiffSet b a).card : ℚ) = 0 := by nlinarith
  rcases mul_eq_zero.mp hdz with h0 | h0
  · exact absurd h0 (ne_of_gt hnq)
  · have : (symmDiffSet b a).card = 0 := by exact_mod_cast h0
    exact (symmDiffSet_eq_empty_iff b a).mp (Finset.card_eq_zero.mp this)

/-- The 0/1 vector of the identity assignment: edge `(i, j)` carries 1 iff
`i = j`. -/
def identX (nB nA : ℕ) : List ℚ :=
  (List.range (nB * nA)).map fun e => if e / nA = e % nA then 1 else 0

theorem identX_getD (nB nA : ℕ) (i j : ℕ) (hi : i < nB) (hj : j < nA) :
    (identX nB nA).getD (i * nA + j) 0 = if i = j then 1 else 0 := by
  have hApos : 0 < nA := by omega
  have he : i * nA + j < nB * nA := by
    calc i * nA + j < (i + 1) * nA := by
          calc i * nA + j < i * nA + nA := by omega
          _ = (i + 1) * nA := by ring
    _ ≤ nB * nA := Nat.mul_le_mul_right _ hi
  rw [identX, getD_map_range (nB * nA) _ he]
  have hdiv : (i * nA + j) / nA = i := by
    rw [Nat.mul_comm i nA, Nat.mul_add_div hApos, Nat.div_eq_of_lt hj,
      Nat.add_zero]
  have hmod : (i * nA + j) % nA = j := by
    rw [Nat.mul_comm i nA, Nat.mul_add_mod nA i j]
    exact Nat.mod_eq_of_lt hj
  rw [hdiv, hmod]

theorem flatten_length_uniform (rows : List (List ℚ)) (nA : ℕ)
    (h : ∀ r ∈ rows, r.length = nA) :
    rows.flatten.length = rows.length * nA := by
  induction rows with
  | nil => simp
  | cons r rest ih =>
      rw [List.flatten_cons, List.length_append,
        h r (List.mem_cons_self r rest),
        ih fun r' hr' => h r' (List.mem_cons_of_mem r hr')]
      simp [List.length_cons]
      ring

/-- The objective value of the LP built by `_match_clusters`, as a double
sum over the cost grid. -/
theorem dot_flatten_cost (pbAug pa : Partition) (x : List ℚ) :
    dot ((costMatrix pbAug pa).flatten) x =
      ∑ i ∈ Finset.range pbAug.length, ∑ j ∈ Finset.range pa.length,
        costEntry pa.length (pbAug.getD i ("", ∅)).2 (pa.getD j ("", ∅)).2 *
          x.getD (i * pa.length + j) 0 := by
  rw [dot, flatten_length_uniform _ _ (costMatrix_row_length pbAug pa),
    costMatrix_length, sum_range_mul]
  refine Finset.sum_congr rfl fun i hi => Finset.sum_congr rfl fun j hj => ?_
  rw [flatten_getD _ _ (costMatrix_row_length pbAug pa) i j
    (by simpa [costMatrix_length] using Finset.mem_range.mp hi)
    (Finset.mem_range.mp hj)]
  rw [costMatrix_getD pbAug pa i j (Finset.mem_range.mp hi)
    (Finset.mem_range.mp hj)]

/-- The identity assignment is feasible whenever there are at least as many
(augmented) before-clusters as after-clusters. -/
theorem identX_feasible (pbAug pa : Partition) (mi : ℕ)
    (hBA : pa.length ≤ pbAug.length) :
    FeasibleFor (buildLinprogInput pbAug pa mi)
      (identX pbAug.length pa.length) := by
  refine ⟨?_, ?_, ?_⟩
  · intro i hi
    have hlen : (buildLinprogInput pbAug pa mi).A_ub.length = pbAug.length := by
      simp [buildLinprogInput, A_ubMatrix]
    rw [hlen] at hi
    rw [show (buildLinprogInput pbAug pa mi).A_ub =
      A_ubMatrix pbAug.length pa.length from rfl]
    rw [dot_A_ub_row pbAug.length pa.length _ i hi]
    rw [show (buildLinprogInput pbAug pa mi).b_ub =
      List.replicate pbAug.length 1 from rfl]
    rw [getD_replicate pbAug.length i hi 1]
    rw [Finset.sum_congr rfl fun j hj =>
      identX_getD pbAug.length pa.length i j hi (Finset.mem_range.mp hj)]
    rw [Finset.sum_ite_eq (Finset.range pa.length) i (fun _ => (1 : ℚ))]
    split <;> norm_num
  · intro j hj
    have hlen : (buildLinprogInput pbAug pa mi).A_eq.length = pa.length := by
      simp [buildLinprogInput, A_eqMatrix]
    rw [hlen] at hj
    rw [show (buildLinprogInput pbAug pa mi).A_eq =
      A_eqMatrix pbAug.length pa.length from rfl]
    rw [dot_A_eq_row pbAug.length pa.length _ j hj]
    rw [show (buildLinprogInput pbAug pa mi).b_eq =
      List.replicate pa.length 1 from rfl]
    rw [getD_replicate pa.length j hj 1]
    rw [Finset.sum_congr rfl fun i hi =>
      identX_getD pbAug.length pa.length i j (Finset.mem_range.mp hi) hj]
    rw [show (fun i => if i = j then (1 : ℚ) else 0) =
      fun i => if i = j then (fun _ => (1 : ℚ)) i else 0 from rfl]
    rw [Finset.sum_ite_eq' (Finset.range pbAug.length) j (fun _ => (1 : ℚ))]
    have : j ∈ Finset.range pbAug.length :=
      Finset.mem_range.mpr (lt_of_lt_of_le hj hBA)
    simp [this]
  · intro v hv
    rw [identX] at hv
    obtain ⟨e, _, rfl⟩ := List.mem_map.mp hv
    split <;> norm_num

/-- The objective value of the identity assignment: the sum of the diagonal
costs. -/
theorem dot_cost_identX (pbAug pa : Partition)
    (hBA : pa.length ≤ pbAug.length) :
    dot ((costMatrix pbAug pa).flatten) (identX pbAug.length pa.length) =
      ∑ j ∈ Finset.range pa.length,
        costEntry pa.length (pbAug.getD j ("", ∅)).2 (pa.getD j ("", ∅)).2 := by
  rw [dot_flatten_cost]
  have hsum : ∀ i ∈ Finset.range pbAug.length,
      (∑ j ∈ Finset.range pa.length,
        costEntry pa.length (pbAug.getD i ("", ∅)).2 (pa.getD j ("", ∅)).2 *
          (identX pbAug.length pa.length).getD (i * pa.length + j) 0) =
      if i ∈ Finset.range pa.length then
        costEntry pa.length (pbAug.getD i ("", ∅)).2 (pa.getD i ("", ∅)).2
      else 0 := by
    intro i hi
    rw [Finset.sum_congr rfl fun j hj => by
      rw [identX_getD pbAug.length pa.length i j (Finset.mem_range.mp hi)
        (Finset.mem_range.mp hj)]]
    rw [Finset.sum_congr rfl fun j hj => by
      rw [show costEntry pa.length (pbAug.getD i ("", ∅)).2 (pa.getD j ("", ∅)).2 *
          (if i = j then (1 : ℚ) else 0) =
        (if j = i then costEntry pa.length (pbAug.getD i ("", ∅)).2
          (pa.getD j ("", ∅)).2 else 0) from by
        by_cases h : i = j <;> simp [h, eq_comm]]]
    rw [Finset.sum_ite_eq' (Finset.range pa.length) i
      (fun j => costEntry pa.length (pbAug.getD i ("", ∅)).2 (pa.getD j ("", ∅)).2)]
  rw [Finset.sum_congr rfl hsum]
  rw [← Finset.sum_filter]
  have hfilter : (Finset.range pbAug.length).filter
      (· ∈ Finset.range pa.length) = Finset.range pa.length := by
    ext i
    simp only [Finset.mem_filter, Finset.mem_range]
    omega
  rw [hfilter]


theorem getD_nonneg (x : List ℚ) (h : ∀ v ∈ x, 0 ≤ v) (e : ℕ) :
    0 ≤ x.getD e 0 := by
  by_cases he : e < x.length
  · rw [List.getD_eq_getElem _ _ he]
    exact h _ (List.getElem_mem he)
  · rw [List.getD_eq_default _ _ (by omega)]

/-- An optimal feasible solution of the LP built for a partition matched
against itself is exactly the identity assignment. -/
theorem identical_optimal_x_eq (P : Partition) (maxiter : ℕ) (x : List ℚ)
    (hvals : (P.map Prod.snd).Nodup)
    (hne : ∀ kv ∈ P, kv.2 ≠ ∅)
    (hfresh : ∀ k ∈ keysOf P, vkey k ∉ keysOf P)
    (hnodup : (keysOf P).Nodup)
    (hF : FeasibleFor (buildLinprogInput (augmentVirtual P P) P maxiter) x)
    (hopt : ∀ y, FeasibleFor (buildLinprogInput (augmentVirtual P P) P maxiter) y →
      dot (buildLinprogInput (augmentVirtual P P) P maxiter).c x ≤
        dot (buildLinprogInput (augmentVirtual P P) P maxiter).c y) :
    ∀ i < (augmentVirtual P P).length, ∀ j < P.length,
      x.getD (i * P.length + j) 0 = if i = j then 1 else 0 := by
  have haug : augmentVirtual P P = P ++ P.map fun kv => (vkey kv.1, ∅) :=
    augmentVirtual_eq_append P P hfresh hnodup
  set pbAug := augmentVirtual P P with hpbAugDef
  set m := P.length with hmDef
  have hlenAug : pbAug.length = m + m := by rw [haug]; simp
  obtain ⟨hrow, hcol, hnn⟩ := feasible_row_col pbAug P maxiter x hF
  have xnn : ∀ e, 0 ≤ x.getD e 0 := getD_nonneg x hnn
  -- the augmented rows: real clusters below m, empty virtual clusters above
  have hBlt : ∀ i < m, pbAug.getD i ("", ∅) = P.getD i ("", ∅) := by
    intro i hi
    rw [haug]
    exact List.getD_append _ _ _ _ hi
  have hBge : ∀ i, m ≤ i → i < m + m → (pbAug.getD i ("", ∅)).2 = ∅ := by
    intro i h1 h2
    rw [haug]
    rw [List.getD_append_right P (P.map fun kv => (vkey kv.1, (∅ : ItemSet)))
      (("", ∅) : String × ItemSet) i (by simpa using h1)]
    have hlt : i - m < (P.map fun kv => (vkey kv.1, (∅ : ItemSet))).length := by
      simp only [List.length_map]
      omega
    rw [List.getD_eq_getElem _ _ hlt]
    simp
  -- the cost grid and the diagonal
  have hm_pos : ∀ j, j < m → 0 < m := fun j hj => by omega
  -- column-wise lower bound on any feasible solution
  have hcx : dot (buildLinprogInput pbAug P maxiter).c x =
      ∑ j ∈ Finset.range m, ∑ i ∈ Finset.range (m + m),
        costEntry m (pbAug.getD i ("", ∅)).2 (P.getD j ("", ∅)).2 *
          x.getD (i * m + j) 0 := by
    rw [show (buildLinprogInput pbAug P maxiter).c =
      (costMatrix pbAug P).flatten from rfl]
    rw [dot_flatten_cost, hlenAug]
    rw [Finset.sum_comm]
  have hdiag : ∀ j < m,
      costEntry m (pbAug.getD j ("", ∅)).2 (P.getD j ("", ∅)).2 =
      costEntry m (P.getD j ("", ∅)).2 (P.getD j ("", ∅)).2 := by
    intro j hj
    rw [hBlt j hj]
  -- per-column inequality: each column of the objective is at least the
  -- diagonal cost
  have hcol_ge : ∀ j < m,
      costEntry m (P.getD j ("", ∅)).2 (P.getD j ("", ∅)).2 ≤
      ∑ i ∈ Finset.range (m + m),
        costEntry m (pbAug.getD i ("", ∅)).2 (P.getD j ("", ∅)).2 *
          x.getD (i * m + j) 0 := by
    intro j hj
    have hcolj := hcol j hj
    rw [hlenAug] at hcolj
    calc costEntry m (P.getD j ("", ∅)).2 (P.getD j ("", ∅)).2
        = costEntry m (P.getD j ("", ∅)).2 (P.getD j ("", ∅)).2 *
          (∑ i ∈ Finset.range (m + m), x.getD (i * m + j) 0) := by
          rw [hcolj, mul_one]
    _ = ∑ i ∈ Finset.range (m + m),
          costEntry m (P.getD j ("", ∅)).2 (P.getD j ("", ∅)).2 *
            x.getD (i * m + j) 0 := by
          rw [Finset.mul_sum]
    _ ≤ ∑ i ∈ Finset.range (m + m),
          costEntry m (pbAug.getD i ("", ∅)).2 (P.getD j ("", ∅)).2 *
            x.getD (i * m + j) 0 := by
          refine Finset.sum_le_sum fun i _ => ?_
          exact mul_le_mul_of_nonneg_right
            (costEntry_self_le m (hm_pos j hj) _ _) (xnn _)
  -- the identity assignment is feasible, so optimality squeezes the sums
  have hident := identX_feasible pbAug P maxiter (by omega)
  have hub := hopt _ hident
  have hidentval : dot (buildLinprogInput pbAug P maxiter).c
      (identX pbAug.length m) =
      ∑ j ∈ Finset.range m,
        costEntry m (P.getD j ("", ∅)).2 (P.getD j ("", ∅)).2 := by
    rw [show (buildLinprogInput pbAug P maxiter).c =
      (costMatrix pbAug P).flatten from rfl]
    rw [dot_cost_identX pbAug P (by omega)]
    exact Finset.sum_congr rfl fun j hj => by
      rw [hdiag j (Finset.mem_range.mp hj)]
  rw [hidentval] at hub
  -- each column attains its lower bound
  have hcols_eq : ∀ j ∈ Finset.range m,
      (∑ i ∈ Finset.range (m + m),
        costEntry m (pbAug.getD i ("", ∅)).2 (P.getD j ("", ∅)).2 *
          x.getD (i * m + j) 0) =
      costEntry m (P.getD j ("", ∅)).2 (P.getD j ("", ∅)).2 := by
    have hsum_le : (∑ j ∈ Finset.range m,
        costEntry m (P.getD j ("", ∅)).2 (P.getD j ("", ∅)).2) ≤
        ∑ j ∈ Finset.range m, ∑ i ∈ Finset.range (m + m),
          costEntry m (pbAug.getD i ("", ∅)).2 (P.getD j ("", ∅)).2 *
            x.getD (i * m + j) 0 :=
      Finset.sum_le_sum fun j hj => hcol_ge j (Finset.mem_range.mp hj)
    have hsum_ge : (∑ j ∈ Finset.range m, ∑ i ∈ Finset.range (m + m),
        costEntry m (pbAug.getD i ("", ∅)).2 (P.getD j ("", ∅)).2 *
          x.getD (i * m + j) 0) ≤
        ∑ j ∈ Finset.range m,
          costEntry m (P.getD j ("", ∅)).2 (P.getD j ("", ∅)).2 := by
      rw [← hcx]
      exact hub
    have heq : (∑ j ∈ Finset.range m,
        costEntry m (P.getD j ("", ∅)).2 (P.getD j ("", ∅)).2) =
        ∑ j ∈ Finset.range m, ∑ i ∈ Finset.range (m + m),
          costEntry m (pbAug.getD i ("", ∅)).2 (P.getD j ("", ∅)).2 *
            x.getD (i * m + j) 0 := le_antisymm hsum_le hsum_ge
    intro j hj
    have := (Finset.sum_eq_sum_iff_of_le fun j hj =>
      hcol_ge j (Finset.mem_range.mp hj)).mp heq j hj
    exact this.symm
  -- hence every off-diagonal variable vanishes and the diagonal is 1
  intro i hi j hj
  rw [hlenAug] at hi
  have hcolj := hcol j hj
  rw [hlenAug] at hcolj
  have hterm_zero : ∀ i' ∈ Finset.range (m + m),
      (costEntry m (pbAug.getD i' ("", ∅)).2 (P.getD j ("", ∅)).2 -
        costEntry m (P.getD j ("", ∅)).2 (P.getD j ("", ∅)).2) *
        x.getD (i' * m + j) 0 = 0 := by
    have hzero : (∑ i' ∈ Finset.range (m + m),
        (costEntry m (pbAug.getD i' ("", ∅)).2 (P.getD j ("", ∅)).2 -
          costEntry m (P.getD j ("", ∅)).2 (P.getD j ("", ∅)).2) *
          x.getD (i' * m + j) 0) = 0 := by
      have hexp : (∑ i' ∈ Finset.range (m + m),
          (costEntry m (pbAug.getD i' ("", ∅)).2 (P.getD j ("", ∅)).2 -
            costEntry m (P.getD j ("", ∅)).2 (P.getD j ("", ∅)).2) *
            x.getD (i' * m + j) 0) =
          (∑ i' ∈ Finset.range (m + m),
            costEntry m (pbAug.getD i' ("", ∅)).2 (P.getD j ("", ∅)).2 *
              x.getD (i' * m + j) 0) -
          costEntry m (P.getD j ("", ∅)).2 (P.getD j ("", ∅)).2 *
            (∑ i' ∈ Finset.range (m + m), x.getD (i' * m + j) 0) := by
        rw [Finset.mul_sum, ← Finset.sum_sub_distrib]
        exact Finset.sum_congr rfl fun i' _ => by ring
      rw [hexp, hcols_eq j (Finset.mem_range.mpr hj), hcolj, mul_one, sub_self]
    refine (Finset.sum_eq_zero_iff_of_nonneg fun i' hi' => ?_).mp hzero
    exact mul_nonneg (by
      have := costEntry_self_le m (hm_pos j hj)
        (pbAug.getD i' ("", ∅)).2 (P.getD j ("", ∅)).2
      linarith) (xnn _)
  by_cases hij : i = j
  · -- diagonal entry: the column sum forces it to 1
    subst hij
    rw [if_pos rfl]
    have hsingle : (∑ i' ∈ Finset.range (m + m), x.getD (i' * m + i) 0) =
        x.getD (i * m + i) 0 := by
      refine Finset.sum_eq_single_of_mem i (Finset.mem_range.mpr hi) ?_
      intro i' hi' hne'
      -- off-diagonal: x vanishes
      have hterm := hterm_zero i' hi'
      rcases mul_eq_zero.mp hterm with hc | hx
      · -- cost equality would merge two distinct clusters
        exfalso
        have hceq : costEntry m (pbAug.getD i' ("", ∅)).2 (P.getD i ("", ∅)).2 =
            costEntry m (P.getD i ("", ∅)).2 (P.getD i ("", ∅)).2 := by
          linarith [hc]
        have hsets := costEntry_eq_self_imp m (hm_pos i hj) _ _ hceq
        rcases Nat.lt_or_ge i' m with hlt | hge
        · rw [hBlt i' hlt] at hsets
          have : i' = i := by
            refine nodup_getD_inj (P.map Prod.snd) ∅ hvals i' i
              (by simpa using hlt) (by simpa using hj) (P.getD i ("", ∅)).2 ?_ ?_
            · rw [List.getD_eq_getElem _ _ (by simpa using hlt)]
              rw [List.getElem_map]
              rw [List.getD_eq_getElem _ _ hlt] at hsets
              exact hsets
            · rw [List.getD_eq_getElem _ _ (by simpa using hj)]
              rw [List.getElem_map]
              rw [List.getD_eq_getElem _ _ hj]
          exact hne' this
        · rw [hBge i' hge (Finset.mem_range.mp hi')] at hsets
          have hmem : P.getD i ("", ∅) ∈ P := by
            rw [List.getD_eq_getElem _ _ hj]
            exact List.getElem_mem hj
          exact hne _ hmem hsets.symm
      · exact hx
    rw [← hsingle]
    exact hcolj
  · -- off-diagonal entry vanishes
    rw [if_neg hij]
    have hterm := hterm_zero i (Finset.mem_range.mpr hi)
    rcases mul_eq_zero.mp hterm with hc | hx
    · exfalso
      have hceq : costEntry m (pbAug.getD i ("", ∅)).2 (P.getD j ("", ∅)).2 =
          costEntry m (P.getD j ("", ∅)).2 (P.getD j ("", ∅)).2 := by
        linarith [hc]
      have hsets := costEntry_eq_self_imp m (hm_pos j hj) _ _ hceq
      rcases Nat.lt_or_ge i m with hlt | hge
      · rw [hBlt i hlt] at hsets
        have : i = j := by
          refine nodup_getD_inj (P.map Prod.snd) ∅ hvals i j
            (by simpa using hlt) (by simpa using hj) (P.getD j ("", ∅)).2 ?_ ?_
          · rw [List.getD_eq_getElem _ _ (by simpa using hlt)]
            rw [List.getElem_map]
            rw [List.getD_eq_getElem _ _ hlt] at hsets
            exact hsets
          · rw [List.getD_eq_getElem _ _ (by simpa using hj)]
            rw [List.getElem_map]
            rw [List.getD_eq_getElem _ _ hj]
        exact hij this
      · rw [hBge i hge hi] at hsets
        have hmem : P.getD j ("", ∅) ∈ P := by
          rw [List.getD_eq_getElem _ _ hj]
          exact List.getElem_mem hj
        exact hne _ hmem hsets.symm
    · exact hx


theorem filterMap_none_of {α β : Type} (l : List α) (f : α → Option β)
    (h : ∀ i ∈ l, f i = none) : l.filterMap f = [] := by
  induction l with
  | nil => rfl
  | cons a t ih =>
      rw [List.filterMap_cons, h a (List.mem_cons_self a t)]
      exact ih fun i hi => h i (List.mem_cons_of_mem a hi)

theorem filterMap_some_of {α β : Type} (l : List α) (f : α → Option β)
    (g : α → β) (h : ∀ i ∈ l, f i = some (g i)) : l.filterMap f = l.map g := by
  induction l with
  | nil => rfl
  | cons a t ih =>
      rw [List.filterMap_cons, h a (List.mem_cons_self a t), List.map_cons]
      rw [ih fun i hi => h i (List.mem_cons_of_mem a hi)]

theorem map_range_getD {α β : Type} (l : List α) (d : α) (f : α → β) :
    (List.range l.length).map (fun i => f (l.getD i d)) = l.map f := by
  induction l with
  | nil => rfl
  | cons a t ih =>
      rw [show (a :: t).length = t.length + 1 from rfl, List.range_succ_eq_map,
        List.map_cons, List.map_map]
      show f a :: (List.range t.length).map (fun i => f (t.getD i d)) =
        f a :: t.map f
      rw [ih]

/-- Decoding the identity assignment pattern for a partition matched
against itself yields exactly the self-pairs. -/
theorem identical_decode (P : Partition)
    (hfresh : ∀ k ∈ keysOf P, vkey k ∉ keysOf P)
    (hnodup : (keysOf P).Nodup) (x : List ℚ)
    (hx : ∀ i < (augmentVirtual P P).length, ∀ j < P.length,
      x.getD (i * P.length + j) 0 = if i = j then 1 else 0) :
    decodeSolution (keysOf (augmentVirtual P P)) (keysOf P)
      ((augmentVirtual P P).length - P.length) x =
      ⟨P.map fun kv => (kv.1, kv.1), [], []⟩ := by
  have haug : augmentVirtual P P = P ++ P.map fun kv => (vkey kv.1, ∅) :=
    augmentVirtual_eq_append P P hfresh hnodup
  set pbAug := augmentVirtual P P with hpbAugDef
  set m := P.length with hmDef
  have hlenAug : pbAug.length = m + m := by rw [haug]; simp
  have hlenFirst : pbAug.length - m = m := by omega
  have hkeys : keysOf pbAug = keysOf P ++ P.map fun kv => vkey kv.1 := by
    rw [haug, keysOf_append]
    simp [keysOf]
  -- the decode scan of each row
  have hrow_lt : ∀ i < m, decodeRow x m i = some i := by
    intro i hi
    have h01row : ∀ j < m, x.getD (i * m + j) 0 = 0 ∨ x.getD (i * m + j) 0 = 1 := by
      intro j hj
      rw [hx i (by omega) j hj]
      split <;> simp
    have hrowsum : (∑ j ∈ Finset.range m, x.getD (i * m + j) 0) ≤ 1 := by
      rw [Finset.sum_congr rfl fun j hj => hx i (by omega) j (Finset.mem_range.mp hj)]
      rw [Finset.sum_ite_eq (Finset.range m) i (fun _ => (1 : ℚ))]
      simp [hi]
    exact (decodeRow_eq_some_iff x m i h01row hrowsum i).mpr
      ⟨hi, by rw [hx i (by omega) i hi]; simp⟩
  have hrow_ge : ∀ i, m ≤ i → i < m + m → decodeRow x m i = none := by
    intro i h1 h2
    rw [decodeRow]
    refine List.find?_eq_none.mpr fun j hj => ?_
    have hj' : j < m := List.mem_range.mp hj
    rw [hx i (by omega) j hj', if_neg (by omega)]
    simp
  have hsplit : List.range (m + m) =
      List.range m ++ (List.range m).map (m + ·) := List.range_add m m
  have hpairs : decodePairsOf (keysOf pbAug) (keysOf P) m x
      (List.range (m + m)) = P.map fun kv => (kv.1, kv.1) := by
    show (List.range (m + m)).filterMap _ = _
    rw [hsplit, List.filterMap_append]
    have h2 : ((List.range m).map (m + ·)).filterMap (fun i =>
        if i < m then
          (decodeRow x (keysOf P).length i).map fun j =>
            ((keysOf pbAug).getD i "", (keysOf P).getD j "")
        else none) = [] := by
      refine filterMap_none_of _ _ fun i hi => ?_
      obtain ⟨i', hi', rfl⟩ := List.mem_map.mp hi
      rw [if_neg (by omega)]
    rw [h2, List.append_nil]
    have h1 : (List.range m).filterMap (fun i =>
        if i < m then
          (decodeRow x (keysOf P).length i).map fun j =>
            ((keysOf pbAug).getD i "", (keysOf P).getD j "")
        else none) =
        (List.range m).map fun i => ((keysOf P).getD i "", (keysOf P).getD i "") := by
      refine filterMap_some_of _ _ _ fun i hi => ?_
      have hi' : i < m := List.mem_range.mp hi
      rw [if_pos hi', keysOf_length, hrow_lt i hi']
      have hb : (keysOf pbAug).getD i "" = (keysOf P).getD i "" := by
        rw [hkeys]
        exact List.getD_append _ _ _ _ (by simpa [keysOf] using hi')
      rw [Option.map_some', hb]
    rw [h1]
    rw [show List.range m = List.range (keysOf P).length from by rw [keysOf_length]]
    rw [map_range_getD (keysOf P) "" fun k => (k, k)]
    rw [keysOf, List.map_map]
    rfl
  have hnew : decodeNewOf (keysOf P) m x (List.range (m + m)) = [] := by
    show (List.range (m + m)).filterMap _ = _
    rw [hsplit, List.filterMap_append]
    have h1 : (List.range m).filterMap (fun i =>
        if i < m then none
        else (decodeRow x (keysOf P).length i).map fun j => (keysOf P).getD j "") =
        [] := by
      refine filterMap_none_of _ _ fun i hi => ?_
      rw [if_pos (List.mem_range.mp hi)]
    have h2 : ((List.range m).map (m + ·)).filterMap (fun i =>
        if i < m then none
        else (decodeRow x (keysOf P).length i).map fun j => (keysOf P).getD j "") =
        [] := by
      refine filterMap_none_of _ _ fun i hi => ?_
      obtain ⟨i', hi', rfl⟩ := List.mem_map.mp hi
      rw [if_neg (by omega), keysOf_length,
        hrow_ge (m + i') (by omega) (by have := List.mem_range.mp hi'; omega)]
      rfl
    rw [h1, h2]
    rfl
  have hrem : decodeRemovedOf (keysOf pbAug) (keysOf P) m x
      (List.range (m + m)) = [] := by
    show (List.range (m + m)).filterMap _ = _
    rw [hsplit, List.filterMap_append]
    have h1 : (List.range m).filterMap (fun i =>
        if i < m then
          match decodeRow x (keysOf P).length i with
          | some _ => none
          | none => some ((keysOf pbAug).getD i "")
        else none) = [] := by
      refine filterMap_none_of _ _ fun i hi => ?_
      have hi' : i < m := List.mem_range.mp hi
      rw [if_pos hi', keysOf_length, hrow_lt i hi']
    have h2 : (((List.range m).map (m + ·)).filterMap (fun i =>
        if i < m then
          match decodeRow x (keysOf P).length i with
          | some _ => none
          | none => some ((keysOf pbAug).getD i "")
        else none)) = [] := by
      refine filterMap_none_of _ _ fun i hi => ?_
      obtain ⟨i', hi', rfl⟩ := List.mem_map.mp hi
      rw [if_neg (by omega)]
    rw [h1, h2]
    rfl
  rw [decodeSolution_closed, hlenFirst, keysOf_length, hpairs, hnew, hrem]


/-- On the identical-partitions instance, the sum of diagonal costs is a
lower bound for the objective of every feasible solution. -/
theorem identical_dot_ge (P : Partition) (maxiter : ℕ) (y : List ℚ)
    (hfresh : ∀ k ∈ keysOf P, vkey k ∉ keysOf P)
    (hnodup : (keysOf P).Nodup)
    (hFy : FeasibleFor (buildLinprogInput (augmentVirtual P P) P maxiter) y) :
    (∑ j ∈ Finset.range P.length,
      costEntry P.length (P.getD j ("", ∅)).2 (P.getD j ("", ∅)).2) ≤
    dot (buildLinprogInput (augmentVirtual P P) P maxiter).c y := by
  have haug : augmentVirtual P P = P ++ P.map fun kv => (vkey kv.1, ∅) :=
    augmentVirtual_eq_append P P hfresh hnodup
  set pbAug := augmentVirtual P P with hpbAugDef
  set m := P.length with hmDef
  have hlenAug : pbAug.length = m + m := by rw [haug]; simp
  obtain ⟨hrow, hcol, hnn⟩ := feasible_row_col pbAug P maxiter y hFy
  have ynn : ∀ e, 0 ≤ y.getD e 0 := getD_nonneg y hnn
  have hcy : dot (buildLinprogInput pbAug P maxiter).c y =
      ∑ j ∈ Finset.range m, ∑ i ∈ Finset.range (m + m),
        costEntry m (pbAug.getD i ("", ∅)).2 (P.getD j ("", ∅)).2 *
          y.getD (i * m + j) 0 := by
    rw [show (buildLinprogInput pbAug P maxiter).c =
      (costMatrix pbAug P).flatten from rfl]
    rw [dot_flatten_cost, hlenAug]
    rw [Finset.sum_comm]
  rw [hcy]
  refine Finset.sum_le_sum fun j hj => ?_
  have hj' : j < m := Finset.mem_range.mp hj
  have hcolj := hcol j hj'
  rw [hlenAug] at hcolj
  calc costEntry m (P.getD j ("", ∅)).2 (P.getD j ("", ∅)).2
      = costEntry m (P.getD j ("", ∅)).2 (P.getD j ("", ∅)).2 *
        (∑ i ∈ Finset.range (m + m), y.getD (i * m + j) 0) := by
        rw [hcolj, mul_one]
  _ = ∑ i ∈ Finset.range (m + m),
        costEntry m (P.getD j ("", ∅)).2 (P.getD j ("", ∅)).2 *
          y.getD (i * m + j) 0 := by
        rw [Finset.mul_sum]
  _ ≤ ∑ i ∈ Finset.range (m + m),
        costEntry m (pbAug.getD i ("", ∅)).2 (P.getD j ("", ∅)).2 *
          y.getD (i * m + j) 0 := by
        refine Finset.sum_le_sum fun i _ => ?_
        exact mul_le_mul_of_nonneg_right
          (costEntry_self_le m (by omega) _ _) (ynn _)

/-- On the identical-partitions instance, the identity assignment is
optimal among all feasible solutions. -/
theorem identX_optimal_for_identical (P : Partition) (maxiter : ℕ)
    (hfresh : ∀ k ∈ keysOf P, vkey k ∉ keysOf P)
    (hnodup : (keysOf P).Nodup) :
    ∀ y, FeasibleFor (buildLinprogInput (augmentVirtual P P) P maxiter) y →
      dot (buildLinprogInput (augmentVirtual P P) P maxiter).c
        (identX (augmentVirtual P P).length P.length) ≤
      dot (buildLinprogInput (augmentVirtual P P) P maxiter).c y := by
  intro y hy
  have haug : augmentVirtual P P = P ++ P.map fun kv => (vkey kv.1, ∅) :=
    augmentVirtual_eq_append P P hfresh hnodup
  have hlenAug : (augmentVirtual P P).length = P.length + P.length := by
    rw [haug]; simp
  have hval : dot (buildLinprogInput (augmentVirtual P P) P maxiter).c
      (identX (augmentVirtual P P).length P.length) =
      ∑ j ∈ Finset.range P.length,
        costEntry P.length (P.getD j ("", ∅)).2 (P.getD j ("", ∅)).2 := by
    rw [show (buildLinprogInput (augmentVirtual P P) P maxiter).c =
      (costMatrix (augmentVirtual P P) P).flatten from rfl]
    rw [dot_cost_identX _ _ (by omega)]
    refine Finset.sum_congr rfl fun j hj => ?_
    have hj' : j < P.length := Finset.mem_range.mp hj
    rw [show (augmentVirtual P P).getD j ("", ∅) = P.getD j ("", ∅) from by
      rw [haug]; exact List.getD_append _ _ _ _ hj']
  rw [hval]
  exact identical_dot_ge P maxiter y hfresh hnodup hy

/-- C8 amended: matching a partition with duplicate-free keys, pairwise
distinct and non-empty cluster sets (and no key colliding with a virtual
key) against an identical copy of itself returns matched = all keys paired
with themselves, new = [] and removed = [], whenever the LP oracle returns
an optimal feasible solution of the program the code builds. -/
theorem claim_C8_identity_amended (solver : LinprogOracle) (P : Partition)
    (maxiter : ℕ)
    (hnodup : (keysOf P).Nodup)
    (hvals : (P.map Prod.snd).Nodup)
    (hne : ∀ kv ∈ P, kv.2 ≠ ∅)
    (hfresh : ∀ k ∈ keysOf P, vkey k ∉ keysOf P)
    (hF : FeasibleFor (buildLinprogInput (augmentVirtual P P) P maxiter)
      (solver (buildLinprogInput (augmentVirtual P P) P maxiter)).x)
    (hopt : ∀ y,
      FeasibleFor (buildLinprogInput (augmentVirtual P P) P maxiter) y →
      dot (buildLinprogInput (augmentVirtual P P) P maxiter).c
        (solver (buildLinprogInput (augmentVirtual P P) P maxiter)).x ≤
      dot (buildLinprogInput (augmentVirtual P P) P maxiter).c y) :
    (matchClusters solver P P maxiter).1 =
      ⟨P.map fun kv => (kv.1, kv.1), [], []⟩ := by
  have hx := identical_optimal_x_eq P maxiter _ hvals hne hfresh hnodup hF hopt
  exact identical_decode P hfresh hnodup _ hx

/-- C8 counterexample: matching the partition `{1: []}` (one empty cluster)
against an identical copy of itself does NOT return matched = [(1, 1)]:
the divider separates the empty cluster into two one-sided subproblems, so
the key is reported as removed and as new. -/
theorem claim_C8_counterexample :
    doMatching docstringOracle
        [("1", RawValue.items [])] [("1", RawValue.items [])] =
      .ok ⟨[], [["1"]], [["1"]]⟩ ∧
    (⟨[], [["1"]], [["1"]]⟩ : DoMatchingResult) ≠ ⟨[[("1", "1")]], [], []⟩ :=
  ⟨by decide, by decide⟩


/-- An oracle returning the identity assignment of the 2x1 instance. -/
def identityOracle : LinprogOracle := fun _ => ⟨identX 2 1, 0, true⟩

/-- Witness for C8 amended at `P = {"1": {0}}` with the optimal identity
solution. -/
theorem claim_C8_identity_amended_witness :
    (∀ kv ∈ ([("1", ({0} : ItemSet))] : Partition), kv.2 ≠ ∅) ∧
    (matchClusters identityOracle [("1", {0})] [("1", {0})]).1 =
      ⟨[("1", "1")], [], []⟩ := by
  refine ⟨by decide, ?_⟩
  have hlen : (augmentVirtual [("1", ({0} : ItemSet))] [("1", {0})]).length = 2 := by
    decide
  have hF : FeasibleFor
      (buildLinprogInput (augmentVirtual [("1", {0})] [("1", {0})])
        [("1", {0})] 5000)
      (identityOracle (buildLinprogInput (augmentVirtual [("1", {0})] [("1", {0})])
        [("1", {0})] 5000)).x := by
    show FeasibleFor _ (identX 2 1)
    rw [show (2 : ℕ) = (augmentVirtual [("1", ({0} : ItemSet))] [("1", {0})]).length
      from hlen.symm]
    exact identX_feasible _ _ _ (by rw [hlen]; decide)
  have hopt : ∀ y,
      FeasibleFor (buildLinprogInput (augmentVirtual [("1", {0})] [("1", {0})])
        [("1", {0})] 5000) y →
      dot (buildLinprogInput (augmentVirtual [("1", {0})] [("1", {0})])
        [("1", {0})] 5000).c
        (identityOracle (buildLinprogInput
          (augmentVirtual [("1", {0})] [("1", {0})]) [("1", {0})] 5000)).x ≤
      dot (buildLinprogInput (augmentVirtual [("1", {0})] [("1", {0})])
        [("1", {0})] 5000).c y := by
    intro y hy
    have h := identX_optimal_for_identical [("1", {0})] 5000
      (by decide) (by decide) y hy
    rw [hlen] at h
    exact h
  have h := claim_C8_identity_amended identityOracle [("1", {0})] 5000
    (by decide) (by decide) (by decide) (by decide) hF hopt
  rw [h]
  rfl

end CdsBeard
